import Mathlib

/-!
Verification of the dependency-graph validation, repair and eligibility-selection
core of the task management tool, together with two helper functions taken
directly from the repository source (`compareVersions` in
`scripts/modules/commands.js` and the argument-validation prefix of
`parsePRDDirect` in `mcp-server/src/core/direct-functions/parse-prd.js`).

The dependency core itself (dependency-manager.js / task-manager.js) is not part
of the available sources; only its CLI callers are.  Following the specification
document, those operations are modelled here from the spec's words: the data
model of §3, the identifier resolver of §4.1, the graph builder of §4.2, the
validator of §4.3, the repairer of §4.4, the mutation operations of §4.5 and the
eligibility selector of §4.6.  Each such definition carries a doc comment
starting with "Modelled from the spec:".
-/

namespace TaskCore

/-- Modelled from the spec: the status enumeration of §3
(`pending`, `in-progress`, `review`, `done`, `deferred`, `cancelled`). -/
inductive Status where
  | pending
  | inProgress
  | review
  | done
  | deferred
  | cancelled
deriving DecidableEq

/-- Modelled from the spec: the priority enumeration of §3 (`high`, `medium`, `low`). -/
inductive Priority where
  | high
  | medium
  | low
deriving DecidableEq

/-- Modelled from the spec: a `TaskRef` of §3 is a reference to either a task
(`plain: int`) or a subtask (`composite: (parentId, subtaskId)`). -/
inductive TaskRef where
  | plain (id : Nat)
  | composite (parentId subtaskId : Nat)
deriving DecidableEq

/-- Modelled from the spec: canonical ordering key of a `TaskRef`, "numeric, then
subtask id" (§4.6); a plain task id sorts before the subtasks it owns. -/
def TaskRef.key : TaskRef → Nat × Nat
  | .plain n => (n, 0)
  | .composite p s => (p, s + 1)

/-- Decidable strict comparison of canonical keys (lexicographic). -/
def TaskRef.keyLt (a b : TaskRef) : Prop :=
  a.key.1 < b.key.1 ∨ (a.key.1 = b.key.1 ∧ a.key.2 < b.key.2)

instance (a b : TaskRef) : Decidable (TaskRef.keyLt a b) := by
  unfold TaskRef.keyLt; infer_instance

/-- Modelled from the spec: a `Subtask` of §3 — same fields as a task but no
nested subtasks. -/
structure Subtask where
  id : Nat
  title : String
  description : String
  details : String
  testStrategy : String
  status : Status
  priority : Priority
  dependencies : List TaskRef
deriving DecidableEq

/-- Modelled from the spec: a `Task` of §3. -/
structure Task where
  id : Nat
  title : String
  description : String
  details : String
  testStrategy : String
  status : Status
  priority : Priority
  dependencies : List TaskRef
  subtasks : List Subtask
deriving DecidableEq

/-- Modelled from the spec: the persisted collection of §6 — a top-level object
with a `tasks` field holding an ordered sequence of tasks. -/
structure Collection where
  tasks : List Task
deriving DecidableEq

/-- Flattened view of one task or subtask: its canonical reference, status,
priority and dependency list.  This is the node data the graph builder of §4.2
and the validator of §4.3 operate on. -/
structure Entity where
  ref : TaskRef
  status : Status
  priority : Priority
  deps : List TaskRef
deriving DecidableEq

/-- Modelled from the spec: every existing task and subtask of the collection,
in stable collection order (each task followed by its subtasks, §4.3). -/
def Collection.entities (c : Collection) : List Entity :=
  c.tasks.flatMap fun t =>
    ⟨.plain t.id, t.status, t.priority, t.dependencies⟩ ::
      t.subtasks.map fun s => ⟨.composite t.id s.id, s.status, s.priority, s.dependencies⟩

/-- Modelled from the spec: the node set of the graph builder of §4.2 — the
canonical references of every existing task and subtask. -/
def Collection.nodes (c : Collection) : List TaskRef :=
  c.entities.map (·.ref)

/-- Modelled from the spec: resolution of §4.1 — a reference resolves exactly
when the referenced task (or parent task and subtask) exists. -/
def Collection.resolves (c : Collection) (r : TaskRef) : Bool :=
  decide (r ∈ c.nodes)

/-- Modelled from the spec: status of the entity a reference resolves to
(first entity in collection order with that canonical reference). -/
def Collection.statusOf (c : Collection) (r : TaskRef) : Option Status :=
  (c.entities.find? (fun e => e.ref = r)).map (·.status)

/-- Modelled from the spec: the adjacency of the graph builder of §4.2 — edges
point from a dependent node to each entry in its `dependencies` list.  A
reference that denotes no existing entity has no outgoing edges. -/
def Collection.adj (c : Collection) (r : TaskRef) : List TaskRef :=
  match c.entities.find? (fun e => e.ref = r) with
  | some e => e.deps
  | none => []

/-- Total number of dependency entries in the collection (the edge count of the
dependency graph, counting dangling entries). -/
def Collection.edgeCount (c : Collection) : Nat :=
  (c.entities.map (fun e => e.deps.length)).sum

/-- Index of the first element with minimal canonical key (0 on the empty list). -/
def argminKey : List TaskRef → Nat
  | [] => 0
  | [_] => 0
  | a :: b :: rest =>
    let i := argminKey (b :: rest)
    if TaskRef.keyLt ((b :: rest).getD i b) a then i + 1 else 0

/-- Modelled from the spec: cycles are reported "with the first node being the
one with the lowest canonical id" (§4.3) — rotate the cycle so that the node
with the minimal canonical key comes first. -/
def rotMin (l : List TaskRef) : List TaskRef :=
  l.rotate (argminKey l)

/-- Modelled from the spec: the cycle the depth-first traversal of §4.3 reports
when it reaches a node already on the recursion stack (most-recent-first): the
stack segment from that node to the top, in forward edge order, rotated to the
canonical presentation. -/
def extractCycle (node : TaskRef) (stack : List TaskRef) : List TaskRef :=
  rotMin (node :: (stack.takeWhile (fun x => x ≠ node)).reverse)

/-- Modelled from the spec: the global depth-first traversal of §4.3 with a
recursion stack.  `work` is the list of references still to visit at the
current level, `stack` the recursion stack (most recent first), `visited` the
set of fully-explored references.  Returns the updated visited set and the
cycles found.  Fuel only bounds the recursion depth; callers supply enough. -/
def dfsStep (f : TaskRef → List TaskRef) :
    Nat → List TaskRef → List TaskRef → List TaskRef →
    List TaskRef × List (List TaskRef)
  | 0, _, _, visited => (visited, [])
  | _ + 1, [], _, visited => (visited, [])
  | fuel + 1, node :: rest, stack, visited =>
    if node ∈ stack then
      let r := dfsStep f fuel rest stack visited
      (r.1, extractCycle node stack :: r.2)
    else if node ∈ visited then
      dfsStep f fuel rest stack visited
    else
      let r1 := dfsStep f fuel (f node) (node :: stack) visited
      let r2 := dfsStep f fuel rest stack (node :: r1.1)
      (r2.1, r1.2 ++ r2.2)

/-- Modelled from the spec: the cycle detection of §4.3 — run the depth-first
traversal over every node of the graph built from the collection, in stable
collection order, and collect the cycles found. -/
def Collection.findCycles (c : Collection) : List (List TaskRef) :=
  (dfsStep c.adj (c.nodes.length + 2 * c.edgeCount + 2) c.nodes [] []).2

/-- A nonempty list of references is a cycle of the graph `f` when consecutive
elements are edges and the last element has an edge back to the first. -/
def IsCycle (f : TaskRef → List TaskRef) (l : List TaskRef) : Prop :=
  l ≠ [] ∧ List.Chain' (fun a b => b ∈ f a) l ∧
    ∀ a ∈ l.head?, ∀ b ∈ l.getLast?, a ∈ f b

/-- Element following the first occurrence of `e` in `l`, cyclically (the head
of `l` when `e` is the last element). -/
def cyclicSuccessor (l : List TaskRef) (e : TaskRef) : TaskRef :=
  match l.dropWhile (fun x => x ≠ e) with
  | _ :: s :: _ => s
  | _ => l.headD e

/-- Element of the list with the numerically highest canonical key
(first such element on ties; `plain 0` on the empty list). -/
def maxKeyNode : List TaskRef → TaskRef
  | [] => .plain 0
  | [a] => a
  | a :: b :: rest =>
    if TaskRef.keyLt (maxKeyNode (b :: rest)) a then a
    else maxKeyNode (b :: rest)


/-- Modelled from the spec: a detected breach of a data-model invariant (§4.3,
glossary): self-dependency, duplicate entry, dangling reference, or a cycle
identified by its full ordered sequence of references. -/
inductive Violation where
  | selfDep (entity ref : TaskRef)
  | duplicate (entity ref : TaskRef)
  | dangling (entity ref : TaskRef)
  | cycle (path : List TaskRef)
deriving DecidableEq

/-- One pass over a dependency list keeping the first occurrence of each
reference (by canonical form): returns the kept entries and the dropped
duplicate entries, both in original order.  `seen` are references already kept. -/
def dedupSplit (seen : List TaskRef) : List TaskRef → List TaskRef × List TaskRef
  | [] => ([], [])
  | r :: rest =>
    if r ∈ seen then
      let p := dedupSplit seen rest
      (p.1, r :: p.2)
    else
      let p := dedupSplit (r :: seen) rest
      (r :: p.1, p.2)

/-- Modelled from the spec: the node-local checks of §4.3, in order:
(1) self-dependency — a reference equal to the entity's own canonical
reference; (2) duplicate entries within the list (by canonical form);
(3) dangling reference — a reference that fails resolution. -/
def entityViolations (c : Collection) (e : Entity) : List Violation :=
  (e.deps.filter (fun r => r = e.ref)).map (Violation.selfDep e.ref) ++
  (dedupSplit [] e.deps).2.map (Violation.duplicate e.ref) ++
  (e.deps.filter (fun r => ¬ c.resolves r)).map (Violation.dangling e.ref)

/-- Modelled from the spec: `validate(collection) -> [Violation]` (§4.3) — the
node-local violations of every task and subtask in stable collection order,
followed by the cycles found by the global depth-first traversal. -/
def Collection.validate (c : Collection) : List Violation :=
  c.entities.flatMap (entityViolations c) ++ c.findCycles.map Violation.cycle

/-- Modelled from the spec: one removal performed by the repairer, recorded as
`Action{entity, removedRef, reason}` (§4.4). -/
structure Action where
  entity : TaskRef
  removedRef : TaskRef
  reason : String
deriving DecidableEq

/-- Apply a dependency-list transformation to every task and subtask of the
collection; `g` receives the entity's canonical reference and its list. -/
def mapDeps (g : TaskRef → List TaskRef → List TaskRef) (c : Collection) : Collection :=
  ⟨c.tasks.map fun t =>
    { t with
      dependencies := g (.plain t.id) t.dependencies,
      subtasks := t.subtasks.map fun s =>
        { s with dependencies := g (.composite t.id s.id) s.dependencies } }⟩

/-- Record one `Action` per removed entry: `rem` computes, for each entity, the
entries a repair step drops from its dependency list. -/
def collectActions (rem : TaskRef → List TaskRef → List TaskRef) (reason : String)
    (c : Collection) : List Action :=
  c.entities.flatMap fun e => (rem e.ref e.deps).map fun r => ⟨e.ref, r, reason⟩

/-- Drop `s` from the dependency list of the first subtask with id `q`. -/
def removeEdgeSubs (q : Nat) (s : TaskRef) : List Subtask → List Subtask
  | [] => []
  | st :: rest =>
    if st.id = q then
      { st with dependencies := st.dependencies.filter (fun r => r ≠ s) } :: rest
    else st :: removeEdgeSubs q s rest

/-- Drop `s` from the dependency list of the first task with id `n`. -/
def removeEdgePlain (n : Nat) (s : TaskRef) : List Task → List Task
  | [] => []
  | t :: ts =>
    if t.id = n then
      { t with dependencies := t.dependencies.filter (fun r => r ≠ s) } :: ts
    else t :: removeEdgePlain n s ts

/-- Drop `s` from the dependency list of the first subtask `q` of the first
task `p` that owns such a subtask. -/
def removeEdgeComposite (p q : Nat) (s : TaskRef) : List Task → List Task
  | [] => []
  | t :: ts =>
    if t.id = p ∧ t.subtasks.any (fun st => st.id = q) then
      { t with subtasks := removeEdgeSubs q s t.subtasks } :: ts
    else t :: removeEdgeComposite p q s ts

/-- Modelled from the spec: removal of one graph edge (§4.4 step d) — drop the
dependency entry `s` from the entity whose canonical reference is `e` (the
first such entity in collection order, matching the graph builder's node). -/
def Collection.removeEdge (c : Collection) (e s : TaskRef) : Collection :=
  match e with
  | .plain n => ⟨removeEdgePlain n s c.tasks⟩
  | .composite p q => ⟨removeEdgeComposite p q s c.tasks⟩

/-- Modelled from the spec: the cycle-breaking loop of §4.4 step (d) —
repeatedly find a cycle via the same depth-first traversal as §4.3 and remove
the edge whose dependent node has the numerically highest canonical id within
that cycle, re-running cycle detection until none remain.  Fuel bounds the
number of removals; `fix` supplies one more than the total edge count. -/
def breakCycles : Nat → Collection → Collection × List Action
  | 0, c => (c, [])
  | fuel + 1, c =>
    match c.findCycles with
    | [] => (c, [])
    | cyc :: _ =>
      let e := maxKeyNode cyc
      let s := cyclicSuccessor cyc e
      let r := breakCycles fuel (c.removeEdge e s)
      (r.1, ⟨e, s, "cycle"⟩ :: r.2)

/-- Modelled from the spec: repair step (a) of §4.4 — drop all self-dependency
edges. -/
def stepSelf (c : Collection) : Collection :=
  mapDeps (fun ref d => d.filter (fun r => r ≠ ref)) c

/-- Modelled from the spec: repair step (b) of §4.4 — drop all
dangling-reference edges (resolution taken against the step's input). -/
def stepDangling (c : Collection) : Collection :=
  mapDeps (fun _ d => d.filter (fun r => c.resolves r)) c

/-- Modelled from the spec: repair step (c) of §4.4 — deduplicate the remaining
lists preserving first occurrence order. -/
def stepDedup (c : Collection) : Collection :=
  mapDeps (fun _ d => (dedupSplit [] d).1) c

/-- Modelled from the spec: `fix(collection) -> (collection, [Action])` (§4.4).
Repair order on a working copy: (a) drop all self-dependency edges; (b) drop
all dangling-reference edges; (c) deduplicate remaining lists preserving first
occurrence order; (d) break remaining cycles.  Each removal is recorded as an
`Action`; no entity's other content is touched. -/
def Collection.fix (c : Collection) : Collection × List Action :=
  let c1 := stepSelf c
  let a1 := collectActions (fun ref d => d.filter (fun r => r = ref)) "self-dependency" c
  let c2 := stepDangling c1
  let a2 := collectActions (fun _ d => d.filter (fun r => ¬ c1.resolves r)) "dangling reference" c1
  let c3 := stepDedup c2
  let a3 := collectActions (fun _ d => (dedupSplit [] d).2) "duplicate" c2
  let r := breakCycles (c3.edgeCount + 1) c3
  (r.1, a1 ++ a2 ++ a3 ++ r.2)

/-- Append `s` to the dependency list of the first subtask with id `q`. -/
def insertDepSubs (q : Nat) (s : TaskRef) : List Subtask → List Subtask
  | [] => []
  | st :: rest =>
    if st.id = q then { st with dependencies := st.dependencies ++ [s] } :: rest
    else st :: insertDepSubs q s rest

/-- Append `s` to the dependency list of the first task with id `n`. -/
def insertDepPlain (n : Nat) (s : TaskRef) : List Task → List Task
  | [] => []
  | t :: ts =>
    if t.id = n then { t with dependencies := t.dependencies ++ [s] } :: ts
    else t :: insertDepPlain n s ts

/-- Append `s` to the dependency list of the first subtask `q` owned by the
first task `p` that has such a subtask. -/
def insertDepComposite (p q : Nat) (s : TaskRef) : List Task → List Task
  | [] => []
  | t :: ts =>
    if t.id = p ∧ t.subtasks.any (fun st => st.id = q) then
      { t with subtasks := insertDepSubs q s t.subtasks } :: ts
    else t :: insertDepComposite p q s ts

/-- Modelled from the spec: the simulated insertion of §4.5 — append the new
dependency entry to the dependent entity's list. -/
def Collection.insertDep (c : Collection) (e s : TaskRef) : Collection :=
  match e with
  | .plain n => ⟨insertDepPlain n s c.tasks⟩
  | .composite p q => ⟨insertDepComposite p q s c.tasks⟩

/-- Modelled from the spec: the error kinds of §7 raised by mutation operations. -/
inductive DepError where
  | notFound (r : TaskRef)
  | selfDependency
  | alreadyExists
  | wouldCreateCycle (path : List TaskRef)
deriving DecidableEq

/-- Modelled from the spec: `addDependency` (§4.5) — resolve both references
(`NotFound` on failure), reject equal references (`SelfDependency`), reject an
entry already present (`AlreadyExists`), then simulate the insertion and run
cycle detection on the simulated graph before committing; on a detected cycle
fail with `WouldCreateCycle` (cycle path included) and leave the collection
unchanged.  Errors return the input collection unmodified (§7). -/
def Collection.addDependency (c : Collection) (taskRef dependsOn : TaskRef) :
    Collection × Option DepError :=
  if ¬ c.resolves taskRef then (c, some (.notFound taskRef))
  else if ¬ c.resolves dependsOn then (c, some (.notFound dependsOn))
  else if taskRef = dependsOn then (c, some .selfDependency)
  else if dependsOn ∈ c.adj taskRef then (c, some .alreadyExists)
  else
    match (c.insertDep taskRef dependsOn).findCycles with
    | [] => (c.insertDep taskRef dependsOn, none)
    | cyc :: _ => (c, some (.wouldCreateCycle cyc))

/-- True when the reference denotes task `tid` or a subtask owned by it. -/
def refersToTask (tid : Nat) : TaskRef → Bool
  | .plain n => n = tid
  | .composite p _ => p = tid

/-- Modelled from the spec: `removeTask` (§4.5, §3) — cascading delete: remove
every task with the given id together with its subtasks, and strip every
dependency entry elsewhere that referenced the removed task or any of its
subtasks.  Also returns the canonical references of the removed entities. -/
def Collection.removeTask (c : Collection) (tid : Nat) : Collection × List TaskRef :=
  (⟨(c.tasks.filter (fun t => t.id ≠ tid)).map fun t =>
      { t with
        dependencies := t.dependencies.filter (fun r => ¬ refersToTask tid r),
        subtasks := t.subtasks.map fun st =>
          { st with dependencies := st.dependencies.filter (fun r => ¬ refersToTask tid r) } }⟩,
    (c.entities.filter (fun e => refersToTask tid e.ref)).map (·.ref))

/-- Modelled from the spec: numeric rank of a priority, `high` ranking before
`medium` before `low` (§4.6); a smaller rank is preferred. -/
def prioRank : Priority → Nat
  | .high => 0
  | .medium => 1
  | .low => 2

/-- Selection key of an entity: priority rank first, then the canonical
reference key, all compared lexicographically (smaller is preferred, §4.6). -/
def entKey (e : Entity) : Nat × Nat × Nat :=
  (prioRank e.priority, e.ref.key.1, e.ref.key.2)

/-- Lexicographic strict order on selection keys. -/
def tripleLt (a b : Nat × Nat × Nat) : Prop :=
  a.1 < b.1 ∨ (a.1 = b.1 ∧ (a.2.1 < b.2.1 ∨ (a.2.1 = b.2.1 ∧ a.2.2 < b.2.2)))

instance (a b : Nat × Nat × Nat) : Decidable (tripleLt a b) := by
  unfold tripleLt; infer_instance

/-- Modelled from the spec: strict preference between candidates (§4.6):
higher priority first, lower canonical id as tie-break. -/
def betterEnt (a b : Entity) : Bool :=
  decide (tripleLt (entKey a) (entKey b))

/-- Fold over the remaining candidates keeping the best one seen so far; an
earlier candidate is kept unless a later one is strictly better, so the first
of equally-keyed candidates wins. -/
def pickBestAux : Entity → List Entity → Entity
  | b, [] => b
  | b, e :: rest => pickBestAux (if betterEnt e b then e else b) rest

/-- Best candidate of a list under `betterEnt`, if any. -/
def pickBest : List Entity → Option Entity
  | [] => none
  | e :: rest => some (pickBestAux e rest)

/-- True for the two terminal statuses `done` and `cancelled` (§4.6). -/
def terminal (s : Status) : Bool :=
  s = Status.done ∨ s = Status.cancelled

/-- Modelled from the spec: eligibility (§4.6) — the entity's status is not
`done`/`cancelled` and every entry of its dependency list resolves to an
entity whose status is `done`. -/
def Collection.eligible (c : Collection) (e : Entity) : Bool :=
  ¬ terminal e.status && e.deps.all (fun r => c.statusOf r = some Status.done)

/-- Modelled from the spec: result of the eligibility selector (§4.6).  The two
terminal `None` conditions — everything done/cancelled versus every remaining
entity blocked — are distinguishable for caller reporting. -/
inductive NextResult where
  | entity (e : Entity)
  | allDone
  | allBlocked
deriving DecidableEq

/-- Modelled from the spec: `next(collection)` (§4.6) — the best eligible
entity by priority then canonical id; otherwise `allDone` when every entity is
terminal and `allBlocked` when some non-terminal entity remains. -/
def Collection.next (c : Collection) : NextResult :=
  match pickBest (c.entities.filter (fun e => c.eligible e)) with
  | some e => .entity e
  | none =>
    if c.entities.all (fun e => terminal e.status) then .allDone
    else .allBlocked

/-- Modelled from the spec: the error kind of the identifier resolver (§4.1). -/
inductive IdError where
  | invalidIdFormat
deriving DecidableEq

/-- Numeric value of a digit string (most significant first). -/
def digitsToNat (l : List Char) : Nat :=
  l.foldl (fun acc c => acc * 10 + (c.toNat - '0'.toNat)) 0

/-- Modelled from the spec: the token grammar of §4.1, a transcription of the
regular expression `[0-9]+` optionally followed by `.` and `[0-9]+`. -/
def GrammarMatch (l : List Char) : Prop :=
  (l ≠ [] ∧ ∀ ch ∈ l, ch.isDigit) ∨
  (∃ a b, l = a ++ '.' :: b ∧ a ≠ [] ∧ b ≠ [] ∧
    (∀ ch ∈ a, ch.isDigit) ∧ (∀ ch ∈ b, ch.isDigit))

/-- Modelled from the spec: the identifier resolver (§4.1) — parse a token into
a `TaskRef`: a plain form `"N"` or a composite form `"N.M"`; any other shape
fails with `InvalidIdFormat`.  A token with a dot always denotes a subtask
reference. -/
def parseRefChars (l : List Char) : Except IdError TaskRef :=
  match l.span (·.isDigit) with
  | (ds, []) =>
    if ds = [] then .error .invalidIdFormat
    else .ok (.plain (digitsToNat ds))
  | (ds, ch :: rest) =>
    if ch = '.' ∧ ds ≠ [] ∧ rest ≠ [] ∧ rest.all (·.isDigit) then
      .ok (.composite (digitsToNat ds) (digitsToNat rest))
    else .error .invalidIdFormat

/-- Modelled from the spec: `resolve(idToken: string) -> TaskRef | Error` (§4.1,
§6), operating on the token's character list. -/
def resolveToken (s : String) : Except IdError TaskRef :=
  parseRefChars s.data

/-- Task literal with empty text fields, used by the concrete examples of §8. -/
def exTask (i : Nat) (st : Status) (pr : Priority) (deps : List TaskRef) : Task :=
  ⟨i, "", "", "", "", st, pr, deps, []⟩

/-- Example collection of §8: tasks `1 (deps=[2])`, `2 (deps=[3])`, `3`;
`addDependency(3, 1)` must be rejected with a cycle. -/
def exampleChain : Collection :=
  ⟨[exTask 1 .pending .medium [.plain 2], exTask 2 .pending .medium [.plain 3],
    exTask 3 .pending .medium []]⟩

/-- Example collection of §8: tasks `1 (done)`, `2 (pending, deps=[1])`,
`3 (pending, deps=[2])`; `next` must return task `2`. -/
def exampleNext : Collection :=
  ⟨[exTask 1 .done .medium [], exTask 2 .pending .medium [.plain 1],
    exTask 3 .pending .medium [.plain 2]]⟩

/-- Example collection in which every task is terminal. -/
def exampleDone : Collection :=
  ⟨[exTask 1 .done .medium [], exTask 2 .cancelled .medium []]⟩

/-- Example collection in which the only remaining task is blocked by an
unsatisfied dependency. -/
def exampleBlocked : Collection :=
  ⟨[exTask 1 .pending .medium [.plain 99]]⟩

/-- First-match dependency-list update on the flattened entity view: filter `s`
out of the dependency list of the first entity whose reference is `e`. -/
def updFirst : List Entity → TaskRef → TaskRef → List Entity
  | [], _, _ => []
  | ent :: rest, e, s =>
    if ent.ref = e then
      ⟨ent.ref, ent.status, ent.priority, ent.deps.filter (fun r => r ≠ s)⟩ :: rest
    else ent :: updFirst rest e s

/-- Repair-step relation on the flattened view: reference, status and priority
are unchanged and the dependency list only loses entries. -/
def EntRel (a b : Entity) : Prop :=
  b.ref = a.ref ∧ b.status = a.status ∧ b.priority = a.priority ∧ b.deps.Sublist a.deps

/-- Repair-step relation on subtasks: every field except the dependency list is
unchanged, and the dependency list only loses entries. -/
def SubRel (a b : Subtask) : Prop :=
  b.id = a.id ∧ b.title = a.title ∧ b.description = a.description ∧
  b.details = a.details ∧ b.testStrategy = a.testStrategy ∧
  b.status = a.status ∧ b.priority = a.priority ∧
  b.dependencies.Sublist a.dependencies

/-- Repair-step relation on tasks: every field except the dependency lists is
unchanged, subtasks are preserved pointwise, and dependency lists only lose
entries. -/
def TaskRel (a b : Task) : Prop :=
  b.id = a.id ∧ b.title = a.title ∧ b.description = a.description ∧
  b.details = a.details ∧ b.testStrategy = a.testStrategy ∧
  b.status = a.status ∧ b.priority = a.priority ∧
  b.dependencies.Sublist a.dependencies ∧
  List.Forall₂ SubRel a.subtasks b.subtasks

/-- Repair-step relation on collections: tasks are preserved pointwise. -/
def CollRel (a b : Collection) : Prop :=
  List.Forall₂ TaskRel a.tasks b.tasks

/-- Total dependency-entry count of a flattened entity list. -/
def entDepsSum (l : List Entity) : Nat :=
  (l.map (fun e => e.deps.length)).sum

end TaskCore

namespace JsHelpers

/-- Leading-digit parse of one version component, as JavaScript
`parseInt(p, 10)` behaves on the split pieces in `compareVersions`
(`scripts/modules/commands.js` line 1767): skip leading whitespace, accept an
optional sign, then read the longest digit prefix; no digits gives `NaN`,
modelled as `none`. -/
def parseIntJS (s : List Char) : Option Int :=
  let l := s.dropWhile (·.isWhitespace)
  let sp : Int × List Char :=
    match l with
    | '-' :: rest => (-1, rest)
    | '+' :: rest => (1, rest)
    | _ => (1, l)
  let ds := sp.2.takeWhile (·.isDigit)
  if ds = [] then none
  else some (sp.1 * (TaskCore.digitsToNat ds : Int))

/-- Split a character list on `'.'`, keeping empty pieces, as JavaScript
`v.split('.')` does (the empty string yields one empty piece). -/
def splitOnDot : List Char → List (List Char)
  | [] => [[]]
  | ch :: rest =>
    match splitOnDot rest with
    | [] => [[ch]]
    | h :: t => if ch = '.' then [] :: h :: t else (ch :: h) :: t

/-- Value of one looked-up component: a missing index and `NaN` both read as
`0`, mirroring `v1Parts[i] || 0` in the source. -/
def partVal (o : Option Int) : Int :=
  o.getD 0

/-- Tail of the comparison loop of `compareVersions` once the first list is
exhausted: each remaining component of the second list is compared against the
missing-component value `0`. -/
def cmpZeros : List (Option Int) → Int
  | [] => 0
  | y :: ys =>
    if (0 : Int) < partVal y then -1
    else if partVal y < 0 then 1
    else cmpZeros ys

/-- Componentwise comparison loop of `compareVersions`
(`scripts/modules/commands.js` lines 1770-1778): walk both component lists in
step up to the longer one, treating a missing component as `0`, and return at
the first strict difference. -/
def cmpParts : List (Option Int) → List (Option Int) → Int
  | [], ys => cmpZeros ys
  | x :: xs, [] =>
    if partVal x < 0 then -1
    else if 0 < partVal x then 1
    else cmpParts xs []
  | x :: xs, y :: ys =>
    if partVal x < partVal y then -1
    else if partVal y < partVal x then 1
    else cmpParts xs ys

/-- Embedding of `compareVersions(v1, v2)` from `scripts/modules/commands.js`
lines 1766-1779: split both versions on dots, parse each piece with
`parseInt`, and compare componentwise with missing components read as `0`. -/
def compareVersions (v1 v2 : String) : Int :=
  cmpParts ((splitOnDot v1.data).map parseIntJS) ((splitOnDot v2.data).map parseIntJS)

/-- Arguments to `parsePRDDirect` as far as its validation prefix reads them:
the three path fields, each possibly absent.  JavaScript truthiness makes the
empty string count as missing. -/
structure PrdArgs where
  projectRoot : Option String
  input : Option String
  output : Option String
deriving DecidableEq

/-- Truthiness of an optional string field, as `!args.field` tests it in the
source: absent and empty are falsy. -/
def truthy : Option String → Bool
  | none => false
  | some s => s ≠ ""

/-- Error payload shape returned by `parsePRDDirect` on a failed check:
`{success: false, error: {code}, fromCache: false}`. -/
structure PrdError where
  success : Bool
  code : String
  fromCache : Bool
deriving DecidableEq

/-- Outcome of the guard prefix of `parsePRDDirect`: either an early error
return, or control reaches the path-resolution and `parsePRD` invocation. -/
inductive PrdCheck where
  | errorOut (e : PrdError)
  | proceed
deriving DecidableEq

/-- Embedding of the guard prefix of `parsePRDDirect`
(`mcp-server/src/core/direct-functions/parse-prd.js` lines 29-77): first the
AI-client initialization (its failure returns `AI_CLIENT_ERROR`), then the
three required-parameter checks in source order; `proceed` stands for reaching
the rest of the function (and eventually `parsePRD`). -/
def parsePRDDirectCheck (aiClientOk : Bool) (args : PrdArgs) : PrdCheck :=
  if ¬ aiClientOk then .errorOut ⟨false, "AI_CLIENT_ERROR", false⟩
  else if ¬ truthy args.projectRoot then .errorOut ⟨false, "MISSING_PROJECT_ROOT", false⟩
  else if ¬ truthy args.input then .errorOut ⟨false, "MISSING_INPUT_PATH", false⟩
  else if ¬ truthy args.output then .errorOut ⟨false, "MISSING_OUTPUT_PATH", false⟩
  else .proceed

end JsHelpers

namespace TaskCore

lemma dropWhile_ne_head {l : List TaskRef} {node : TaskRef} (h : node ∈ l) :
    ∃ rest, l.dropWhile (fun x => x ≠ node) = node :: rest := by
  induction l with
  | nil => cases h
  | cons a t ih =>
    by_cases ha : a = node
    · subst ha
      exact ⟨t, by simp [List.dropWhile_cons]⟩
    · have hmem : node ∈ t := by
        rcases List.mem_cons.mp h with h1 | h1
        · exact absurd h1.symm ha
        · exact h1
      obtain ⟨rest, hr⟩ := ih hmem
      refine ⟨rest, ?_⟩
      rw [List.dropWhile_cons, if_pos (by simp [ha]), hr]

lemma isCycle_rotate_single {f : TaskRef → List TaskRef} {a : TaskRef} {t : List TaskRef}
    (h : IsCycle f (a :: t)) : IsCycle f (t ++ [a]) := by
  obtain ⟨-, hchain, hclose⟩ := h
  cases t with
  | nil => exact ⟨by simp, by simp, by simpa using hclose⟩

  | cons b t2 =>
    refine ⟨by simp, ?_, ?_⟩
    · refine List.Chain'.append hchain.tail (List.chain'_singleton a) ?_
      intro x hx y hy
      simp only [List.head?_cons, Option.mem_def, Option.some.injEq] at hy
      subst hy
      exact hclose a (by simp) x (by simpa using hx)
    · intro u hu v hv
      rw [List.getLast?_concat] at hv
      simp only [Option.mem_def, Option.some.injEq] at hv
      subst hv
      simp only [List.cons_append, List.head?_cons, Option.mem_def, Option.some.injEq] at hu
      subst hu
      exact (List.chain'_cons.mp hchain).1

lemma isCycle_rotate {f : TaskRef → List TaskRef} :
    ∀ (n : Nat) {l : List TaskRef}, IsCycle f l → IsCycle f (l.rotate n) := by
  intro n
  induction n with
  | zero => intro l h; simpa [List.rotate_zero] using h
  | succ m ih =>
    intro l h
    have hne : l ≠ [] := h.1
    obtain ⟨a, t, rfl⟩ := List.exists_cons_of_ne_nil hne
    rw [List.rotate_cons_succ]
    exact ih (isCycle_rotate_single h)

lemma isCycle_extractCycle {f : TaskRef → List TaskRef} {node : TaskRef} {stack : List TaskRef}
    (hchain : List.Chain' (fun a b => a ∈ f b) stack)
    (hmem : node ∈ stack)
    (hedge : ∀ s ∈ stack.head?, node ∈ f s) :
    IsCycle f (extractCycle node stack) := by
  refine isCycle_rotate _ ?_
  obtain ⟨rest, hd⟩ := dropWhile_ne_head hmem
  have hstack : stack.takeWhile (fun x => x ≠ node) ++ node :: rest = stack := by
    conv_rhs => rw [← List.takeWhile_append_dropWhile (p := fun x => decide (x ≠ node)) (l := stack)]
    rw [hd]
  set pre := stack.takeWhile (fun x => x ≠ node) with hpre
  have hchain2 : List.Chain' (fun a b => a ∈ f b) (pre ++ node :: rest) := by
    rw [hstack]; exact hchain
  obtain ⟨hcp, hcd, hjunction⟩ := List.chain'_append.mp hchain2
  refine ⟨by simp, ?_, ?_⟩
  · refine List.chain'_cons'.mpr ⟨?_, ?_⟩
    · intro y hy
      rw [List.head?_reverse] at hy
      exact hjunction y hy node (by simp)
    · rw [List.chain'_reverse]
      exact hcp
  · intro a ha b hb
    simp only [List.head?_cons, Option.mem_def, Option.some.injEq] at ha
    subst ha
    cases hp : pre with
    | nil =>
      rw [hp] at hb
      simp only [List.reverse_nil, List.getLast?_singleton, Option.mem_def,
        Option.some.injEq] at hb
      subst hb
      have hhead : stack.head? = some node := by
        rw [← hstack, hp]; rfl
      exact hedge node (by rw [hhead]; rfl)
    | cons p0 pre2 =>
      have hlast : (node :: pre.reverse).getLast? = some p0 := by
        rw [hp, show node :: (p0 :: pre2).reverse = (node :: pre2.reverse) ++ [p0] by simp,
          List.getLast?_concat]
      rw [hlast] at hb
      simp only [Option.mem_def, Option.some.injEq] at hb
      subst hb
      have hhead : stack.head? = some p0 := by
        rw [← hstack, hp]; rfl
      exact hedge p0 (by rw [hhead]; rfl)

lemma dfsStep_sound (f : TaskRef → List TaskRef) :
    ∀ (fuel : Nat) (work stack visited : List TaskRef),
      List.Chain' (fun a b => a ∈ f b) stack →
      (∀ w ∈ work, ∀ s ∈ stack.head?, w ∈ f s) →
      ∀ cyc ∈ (dfsStep f fuel work stack visited).2, IsCycle f cyc := by
  intro fuel
  induction fuel with
  | zero =>
    intro work stack visited _ _ cyc hcyc
    simp [dfsStep] at hcyc
  | succ n ih =>
    intro work stack visited hchain hpre cyc hcyc
    cases work with
    | nil => simp [dfsStep] at hcyc
    | cons node rest =>
      rw [dfsStep] at hcyc
      by_cases hmem : node ∈ stack
      · rw [if_pos hmem] at hcyc
        simp only [List.mem_cons] at hcyc
        rcases hcyc with hcyc | hcyc
        · subst hcyc
          exact isCycle_extractCycle hchain hmem (hpre node (by simp))
        · exact ih rest stack visited hchain
            (fun w hw => hpre w (List.mem_cons_of_mem _ hw)) cyc hcyc
      · rw [if_neg hmem] at hcyc
        by_cases hvis : node ∈ visited
        · rw [if_pos hvis] at hcyc
          exact ih rest stack visited hchain
            (fun w hw => hpre w (List.mem_cons_of_mem _ hw)) cyc hcyc
        · rw [if_neg hvis] at hcyc
          simp only [List.mem_append] at hcyc
          rcases hcyc with hcyc | hcyc
          · refine ih (f node) (node :: stack) visited ?_ ?_ cyc hcyc
            · exact List.chain'_cons'.mpr ⟨fun y hy => hpre node (by simp) y hy, hchain⟩
            · intro w hw s hs
              simp only [List.head?_cons, Option.mem_def, Option.some.injEq] at hs
              subst hs
              exact hw
          · exact ih rest stack _ hchain
              (fun w hw => hpre w (List.mem_cons_of_mem _ hw)) cyc hcyc

lemma findCycles_sound (c : Collection) : ∀ cyc ∈ c.findCycles, IsCycle c.adj cyc := by
  intro cyc hcyc
  refine dfsStep_sound c.adj _ c.nodes [] [] List.chain'_nil ?_ cyc hcyc
  intro w _ s hs
  simp at hs

lemma cyclicSuccessor_mem {f : TaskRef → List TaskRef} {l : List TaskRef} {e : TaskRef}
    (hc : IsCycle f l) (he : e ∈ l) : cyclicSuccessor l e ∈ f e := by
  obtain ⟨hne, hchain, hclose⟩ := hc
  obtain ⟨rest, hd⟩ := dropWhile_ne_head he
  rw [cyclicSuccessor, hd]
  cases rest with
  | cons s rest2 =>
    have hsuf : List.Chain' (fun a b => b ∈ f a) (e :: s :: rest2) := by
      refine hchain.suffix ?_
      rw [← hd]
      exact List.dropWhile_suffix _
    exact (List.chain'_cons.mp hsuf).1
  | nil =>
    have hlast : l.getLast? = some e := by
      conv_lhs => rw [← List.takeWhile_append_dropWhile (p := fun x => decide (x ≠ e)) (l := l)]
      rw [hd, List.getLast?_concat]
    obtain ⟨h0, l2, rfl⟩ := List.exists_cons_of_ne_nil hne
    exact hclose h0 (by simp) e (by rw [hlast]; rfl)

lemma maxKeyNode_mem : ∀ {l : List TaskRef}, l ≠ [] → maxKeyNode l ∈ l := by
  intro l
  induction l with
  | nil => simp
  | cons a t ih =>
    intro _
    cases t with
    | nil => simp [maxKeyNode]
    | cons b r =>
      rw [maxKeyNode]
      split
      · exact List.mem_cons_self _ _
      · exact List.mem_cons_of_mem _ (ih (by simp))

lemma entities_mapDeps (g : TaskRef → List TaskRef → List TaskRef) (c : Collection) :
    (mapDeps g c).entities =
      c.entities.map (fun e => ⟨e.ref, e.status, e.priority, g e.ref e.deps⟩) := by
  cases c with
  | mk ts =>
    simp only [Collection.entities, mapDeps, List.flatMap_map, List.map_flatMap]
    congr 1
    funext t
    simp [List.map_map]

lemma nodes_mapDeps (g : TaskRef → List TaskRef → List TaskRef) (c : Collection) :
    (mapDeps g c).nodes = c.nodes := by
  simp [Collection.nodes, entities_mapDeps, List.map_map]

lemma updFirst_append_of_not {xs l : List Entity} {e s : TaskRef}
    (h : ∀ x ∈ xs, x.ref ≠ e) :
    updFirst (xs ++ l) e s = xs ++ updFirst l e s := by
  induction xs with
  | nil => rfl
  | cons x rest ih =>
    rw [List.cons_append, updFirst, if_neg (h x (by simp)),
      ih (fun y hy => h y (by simp [hy]))]
    rfl

lemma updFirst_append_left {xs l : List Entity} {e s : TaskRef}
    (h : ∃ x ∈ xs, x.ref = e) :
    updFirst (xs ++ l) e s = updFirst xs e s ++ l := by
  induction xs with
  | nil => simp at h
  | cons x rest ih =>
    rw [List.cons_append, updFirst, updFirst]
    by_cases hx : x.ref = e
    · rw [if_pos hx, if_pos hx, List.cons_append]
    · rw [if_neg hx, if_neg hx, List.cons_append]
      rcases h with ⟨y, hy, hye⟩
      rcases List.mem_cons.mp hy with h1 | h1
      · exact absurd (h1 ▸ hye) hx
      · rw [ih ⟨y, h1, hye⟩]

lemma subEntities_removeEdgeSubs (tid q : Nat) (s : TaskRef) (sts : List Subtask) :
    (removeEdgeSubs q s sts).map
        (fun st => (⟨.composite tid st.id, st.status, st.priority, st.dependencies⟩ : Entity)) =
      updFirst (sts.map fun st => ⟨.composite tid st.id, st.status, st.priority, st.dependencies⟩)
        (.composite tid q) s := by
  induction sts with
  | nil => rfl
  | cons st rest ih =>
    by_cases hq : st.id = q
    · rw [removeEdgeSubs, if_pos hq, List.map_cons, List.map_cons, updFirst,
        if_pos (by simp [hq])]
    · rw [removeEdgeSubs, if_neg hq, List.map_cons, List.map_cons, updFirst,
        if_neg (by simp [hq]), ih]

lemma entities_removeEdge (c : Collection) (e s : TaskRef) :
    (c.removeEdge e s).entities = updFirst c.entities e s := by
  cases c with
  | mk ts =>
    cases e with
    | plain n =>
      induction ts with
      | nil => rfl
      | cons t rest ih =>
        show (⟨removeEdgePlain n s (t :: rest)⟩ : Collection).entities = _
        by_cases hn : t.id = n
        · rw [removeEdgePlain, if_pos hn]
          simp only [Collection.entities, List.flatMap_cons, List.cons_append]
          rw [updFirst, if_pos (by simp [hn])]
        · rw [removeEdgePlain, if_neg hn]
          simp only [Collection.entities, List.flatMap_cons]
          have hside : ∀ x ∈ (⟨.plain t.id, t.status, t.priority, t.dependencies⟩ : Entity) ::
              (t.subtasks.map fun st =>
                (⟨.composite t.id st.id, st.status, st.priority, st.dependencies⟩ : Entity)),
              x.ref ≠ TaskRef.plain n := by
            intro x hx
            rcases List.mem_cons.mp hx with h1 | h1
            · subst h1; simp [hn]
            · obtain ⟨st, _, rfl⟩ := List.mem_map.mp h1
              simp
          rw [updFirst_append_of_not hside]
          exact congrArg _ ih
    | composite p q =>
      induction ts with
      | nil => rfl
      | cons t rest ih =>
        show (⟨removeEdgeComposite p q s (t :: rest)⟩ : Collection).entities = _
        by_cases hc : t.id = p ∧ t.subtasks.any (fun st => st.id = q)
        · obtain ⟨htp, hany⟩ := hc
          subst htp
          rw [removeEdgeComposite, if_pos ⟨rfl, hany⟩]
          simp only [Collection.entities, List.flatMap_cons, List.cons_append]
          rw [updFirst, if_neg (by simp)]
          have hex : ∃ x ∈ t.subtasks.map (fun st =>
              (⟨.composite t.id st.id, st.status, st.priority, st.dependencies⟩ : Entity)),
              x.ref = TaskRef.composite t.id q := by
            obtain ⟨st, hst, hq⟩ := List.any_eq_true.mp hany
            exact ⟨⟨.composite t.id st.id, st.status, st.priority, st.dependencies⟩,
              List.mem_map.mpr ⟨st, hst, rfl⟩, by simp [decide_eq_true_eq.mp hq]⟩
          rw [updFirst_append_left hex, subEntities_removeEdgeSubs]
        · rw [removeEdgeComposite, if_neg hc]
          simp only [Collection.entities, List.flatMap_cons]
          have hside : ∀ x ∈ (⟨.plain t.id, t.status, t.priority, t.dependencies⟩ : Entity) ::
              (t.subtasks.map fun st =>
                (⟨.composite t.id st.id, st.status, st.priority, st.dependencies⟩ : Entity)),
              x.ref ≠ TaskRef.composite p q := by
            intro x hx
            rcases List.mem_cons.mp hx with h1 | h1
            · subst h1; simp
            · obtain ⟨st, hst, rfl⟩ := List.mem_map.mp h1
              simp only [ne_eq, TaskRef.composite.injEq, not_and]
              intro htp hsq
              exact hc ⟨htp, List.any_eq_true.mpr ⟨st, hst, by simp [hsq]⟩⟩
          rw [updFirst_append_of_not hside]
          exact congrArg _ ih

lemma updFirst_refs (l : List Entity) (e s : TaskRef) :
    (updFirst l e s).map (fun x => x.ref) = l.map (fun x => x.ref) := by
  induction l with
  | nil => rfl
  | cons x rest ih =>
    rw [updFirst]
    by_cases hx : x.ref = e
    · rw [if_pos hx]; rfl
    · rw [if_neg hx, List.map_cons, List.map_cons, ih]

lemma entRel_refl (a : Entity) : EntRel a a :=
  ⟨rfl, rfl, rfl, List.Sublist.refl _⟩

lemma entRel_trans {a b c : Entity} (h1 : EntRel a b) (h2 : EntRel b c) : EntRel a c :=
  ⟨h2.1.trans h1.1, h2.2.1.trans h1.2.1, h2.2.2.1.trans h1.2.2.1,
    h2.2.2.2.trans h1.2.2.2⟩

lemma forall2_entRel_refl (l : List Entity) : List.Forall₂ EntRel l l := by
  induction l with
  | nil => exact List.Forall₂.nil
  | cons x rest ih => exact List.Forall₂.cons (entRel_refl x) ih

lemma forall2_entRel_trans {l1 l2 l3 : List Entity}
    (h1 : List.Forall₂ EntRel l1 l2) (h2 : List.Forall₂ EntRel l2 l3) :
    List.Forall₂ EntRel l1 l3 := by
  induction h1 generalizing l3 with
  | nil => cases h2; exact List.Forall₂.nil
  | cons hab _ ih =>
    cases h2 with
    | cons hbc h2' => exact List.Forall₂.cons (entRel_trans hab hbc) (ih h2')

lemma forall2_mem_right {R : Entity → Entity → Prop} {l l' : List Entity}
    (h : List.Forall₂ R l l') : ∀ b ∈ l', ∃ a ∈ l, R a b := by
  induction h with
  | nil => simp
  | cons hab _ ih =>
    intro b hb
    rcases List.mem_cons.mp hb with h1 | h1
    · exact ⟨_, by simp, h1 ▸ hab⟩
    · obtain ⟨a, ha, har⟩ := ih b h1
      exact ⟨a, by simp [ha], har⟩

lemma updFirst_entRel (l : List Entity) (e s : TaskRef) :
    List.Forall₂ EntRel l (updFirst l e s) := by
  induction l with
  | nil => exact List.Forall₂.nil
  | cons x rest ih =>
    rw [updFirst]
    by_cases hx : x.ref = e
    · rw [if_pos hx]
      exact List.Forall₂.cons ⟨rfl, rfl, rfl, List.filter_sublist _⟩ (forall2_entRel_refl rest)
    · rw [if_neg hx]
      exact List.Forall₂.cons (entRel_refl x) ih

lemma entDepsSum_cons (x : Entity) (l : List Entity) :
    entDepsSum (x :: l) = x.deps.length + entDepsSum l := by
  simp [entDepsSum]

lemma updFirst_sum_lt {l : List Entity} {e s : TaskRef} {ent : Entity}
    (hf : l.find? (fun x => x.ref = e) = some ent) (hs : s ∈ ent.deps) :
    entDepsSum (updFirst l e s) < entDepsSum l := by
  induction l with
  | nil => simp at hf
  | cons x rest ih =>
    by_cases hx : x.ref = e
    · simp only [List.find?_cons, hx, decide_True, Option.some.injEq] at hf
      obtain rfl : x = ent := hf
      rw [updFirst, if_pos hx, entDepsSum_cons, entDepsSum_cons]
      dsimp only
      have : (x.deps.filter (fun r => r ≠ s)).length < x.deps.length :=
        List.length_filter_lt_length_iff_exists.mpr ⟨s, hs, by simp⟩
      omega
    · simp only [List.find?_cons] at hf
      rw [show decide (x.ref = e) = false by simp [hx]] at hf
      rw [updFirst, if_neg hx, entDepsSum_cons, entDepsSum_cons]
      have := ih hf
      omega

lemma filter_ne_length_of_nodup {d : List TaskRef} {s : TaskRef}
    (hnd : d.Nodup) (hs : s ∈ d) :
    (d.filter (fun r => r ≠ s)).length + 1 = d.length := by
  induction d with
  | nil => cases hs
  | cons a rest ih =>
    rcases List.mem_cons.mp hs with h1 | h1
    · subst h1
      rw [List.filter_cons, if_neg (by simp)]
      rw [List.filter_eq_self.mpr]
      · simp
      · intro x hx
        simp only [ne_eq, decide_eq_true_eq]
        intro he
        exact (List.nodup_cons.mp hnd).1 (he ▸ hx)
    · have has : a ≠ s := by
        intro he
        exact (List.nodup_cons.mp hnd).1 (he ▸ h1)
      rw [List.filter_cons, if_pos (by simp [has])]
      have := ih (List.nodup_cons.mp hnd).2 h1
      simp only [List.length_cons]
      omega

lemma updFirst_sum_eq {l : List Entity} {e s : TaskRef} {ent : Entity}
    (hf : l.find? (fun x => x.ref = e) = some ent) (hs : s ∈ ent.deps)
    (hnd : ent.deps.Nodup) :
    entDepsSum (updFirst l e s) + 1 = entDepsSum l := by
  induction l with
  | nil => simp at hf
  | cons x rest ih =>
    by_cases hx : x.ref = e
    · simp only [List.find?_cons, hx, decide_True, Option.some.injEq] at hf
      obtain rfl : x = ent := hf
      rw [updFirst, if_pos hx, entDepsSum_cons, entDepsSum_cons]
      dsimp only
      have := filter_ne_length_of_nodup hnd hs
      omega
    · simp only [List.find?_cons] at hf
      rw [show decide (x.ref = e) = false by simp [hx]] at hf
      rw [updFirst, if_neg hx, entDepsSum_cons, entDepsSum_cons]
      have := ih hf
      omega

lemma adj_mem_find {c : Collection} {e s : TaskRef} (h : s ∈ c.adj e) :
    ∃ ent, c.entities.find? (fun x => x.ref = e) = some ent ∧ s ∈ ent.deps := by
  unfold Collection.adj at h
  cases hf : c.entities.find? (fun x => x.ref = e) with
  | none => rw [hf] at h; simp at h
  | some ent => rw [hf] at h; exact ⟨ent, rfl, h⟩

lemma removeEdge_edgeCount_lt {c : Collection} {e s : TaskRef} (h : s ∈ c.adj e) :
    (c.removeEdge e s).edgeCount < c.edgeCount := by
  obtain ⟨ent, hf, hs⟩ := adj_mem_find h
  show entDepsSum (c.removeEdge e s).entities < entDepsSum c.entities
  rw [entities_removeEdge]
  exact updFirst_sum_lt hf hs

lemma removeEdge_nodes (c : Collection) (e s : TaskRef) :
    (c.removeEdge e s).nodes = c.nodes := by
  show ((c.removeEdge e s).entities).map (fun x => x.ref) = c.entities.map (fun x => x.ref)
  rw [entities_removeEdge]
  exact updFirst_refs _ _ _

lemma breakCycles_findCycles :
    ∀ (fuel : Nat) (c : Collection), c.edgeCount < fuel →
      ((breakCycles fuel c).1).findCycles = [] := by
  intro fuel
  induction fuel with
  | zero => intro c h; exact absurd h (Nat.not_lt_zero _)
  | succ n ih =>
    intro c h
    rw [breakCycles]
    cases hfc : c.findCycles with
    | nil => simpa using hfc
    | cons cyc rest =>
      dsimp only
      have hic : IsCycle c.adj cyc := findCycles_sound c cyc (by rw [hfc]; simp)
      have hmem : maxKeyNode cyc ∈ cyc := maxKeyNode_mem hic.1
      have hadj : cyclicSuccessor cyc (maxKeyNode cyc) ∈ c.adj (maxKeyNode cyc) :=
        cyclicSuccessor_mem hic hmem
      have hlt := removeEdge_edgeCount_lt hadj
      exact ih _ (by omega)

lemma breakCycles_entRel :
    ∀ (fuel : Nat) (c : Collection),
      List.Forall₂ EntRel c.entities ((breakCycles fuel c).1).entities := by
  intro fuel
  induction fuel with
  | zero => intro c; exact forall2_entRel_refl _
  | succ n ih =>
    intro c
    rw [breakCycles]
    cases c.findCycles with
    | nil => exact forall2_entRel_refl _
    | cons cyc rest =>
      dsimp only
      refine forall2_entRel_trans ?_ (ih _)
      rw [entities_removeEdge]
      exact updFirst_entRel _ _ _

lemma breakCycles_nodes :
    ∀ (fuel : Nat) (c : Collection), ((breakCycles fuel c).1).nodes = c.nodes := by
  intro fuel
  induction fuel with
  | zero => intro c; rfl
  | succ n ih =>
    intro c
    rw [breakCycles]
    cases c.findCycles with
    | nil => rfl
    | cons cyc rest =>
      dsimp only
      rw [ih, removeEdge_nodes]

lemma breakCycles_acts :
    ∀ (fuel : Nat) (c : Collection), (∀ ent ∈ c.entities, ent.deps.Nodup) →
      ((breakCycles fuel c).1).edgeCount + ((breakCycles fuel c).2).length = c.edgeCount := by
  intro fuel
  induction fuel with
  | zero => intro c _; simp [breakCycles]
  | succ n ih =>
    intro c hnd
    rw [breakCycles]
    cases hfc : c.findCycles with
    | nil => simp
    | cons cyc rest =>
      dsimp only
      have hic : IsCycle c.adj cyc := findCycles_sound c cyc (by rw [hfc]; simp)
      have hmem : maxKeyNode cyc ∈ cyc := maxKeyNode_mem hic.1
      have hadj : cyclicSuccessor cyc (maxKeyNode cyc) ∈ c.adj (maxKeyNode cyc) :=
        cyclicSuccessor_mem hic hmem
      obtain ⟨ent, hf, hs⟩ := adj_mem_find hadj
      have hentmem : ent ∈ c.entities := List.mem_of_find?_eq_some hf
      have hsum : entDepsSum (updFirst c.entities (maxKeyNode cyc)
          (cyclicSuccessor cyc (maxKeyNode cyc))) + 1 = entDepsSum c.entities :=
        updFirst_sum_eq hf hs (hnd ent hentmem)
      have hnd2 : ∀ ent2 ∈ (c.removeEdge (maxKeyNode cyc)
          (cyclicSuccessor cyc (maxKeyNode cyc))).entities, ent2.deps.Nodup := by
        intro ent2 hent2
        rw [entities_removeEdge] at hent2
        obtain ⟨a, ha, har⟩ := forall2_mem_right (updFirst_entRel c.entities _ _) ent2 hent2
        exact (hnd a ha).sublist har.2.2.2
      have hrec := ih _ hnd2
      have hle : (c.removeEdge (maxKeyNode cyc) (cyclicSuccessor cyc (maxKeyNode cyc))).edgeCount + 1
          = c.edgeCount := by
        show entDepsSum (c.removeEdge _ _).entities + 1 = entDepsSum c.entities
        rw [entities_removeEdge]
        exact hsum
      simp only [List.length_cons]
      omega

lemma dedupSplit_nodup : ∀ (d seen : List TaskRef),
    (dedupSplit seen d).1.Nodup ∧ ∀ x ∈ (dedupSplit seen d).1, x ∉ seen := by
  intro d
  induction d with
  | nil => intro seen; exact ⟨List.nodup_nil, by simp [dedupSplit]⟩
  | cons r rest ih =>
    intro seen
    rw [dedupSplit]
    by_cases hr : r ∈ seen
    · rw [if_pos hr]
      exact ⟨(ih seen).1, (ih seen).2⟩
    · rw [if_neg hr]
      obtain ⟨hnd, hni⟩ := ih (r :: seen)
      refine ⟨List.nodup_cons.mpr ⟨fun hmem => (hni r hmem) (by simp), hnd⟩, ?_⟩
      intro x hx
      rcases List.mem_cons.mp hx with h1 | h1
      · subst h1; exact hr
      · exact fun hxs => hni x h1 (by simp [hxs])

lemma dedupSplit_sublist : ∀ (d seen : List TaskRef), (dedupSplit seen d).1.Sublist d := by
  intro d
  induction d with
  | nil => intro seen; simp [dedupSplit]
  | cons r rest ih =>
    intro seen
    rw [dedupSplit]
    by_cases hr : r ∈ seen
    · rw [if_pos hr]
      exact (ih seen).cons r
    · rw [if_neg hr]
      exact (ih (r :: seen)).cons₂ r

lemma dedupSplit_eq_self : ∀ (d seen : List TaskRef), d.Nodup → (∀ x ∈ d, x ∉ seen) →
    dedupSplit seen d = (d, []) := by
  intro d
  induction d with
  | nil => intro seen _ _; rfl
  | cons r rest ih =>
    intro seen hnd hdis
    have hrec : dedupSplit (r :: seen) rest = (rest, []) := by
      refine ih (r :: seen) (List.nodup_cons.mp hnd).2 ?_
      intro x hx hmem
      rcases List.mem_cons.mp hmem with h1 | h1
      · exact (List.nodup_cons.mp hnd).1 (h1 ▸ hx)
      · exact hdis x (by simp [hx]) h1
    rw [dedupSplit, if_neg (hdis r (by simp)), hrec]

lemma dedupSplit_length : ∀ (d seen : List TaskRef),
    (dedupSplit seen d).1.length + (dedupSplit seen d).2.length = d.length := by
  intro d
  induction d with
  | nil => intro seen; rfl
  | cons r rest ih =>
    intro seen
    rw [dedupSplit]
    by_cases hr : r ∈ seen
    · rw [if_pos hr]
      have := ih seen
      simp only [List.length_cons]
      omega
    · rw [if_neg hr]
      have := ih (r :: seen)
      simp only [List.length_cons]
      omega

lemma entity_plain_mem {ts : List Task} {t : Task} (ht : t ∈ ts) :
    (⟨.plain t.id, t.status, t.priority, t.dependencies⟩ : Entity) ∈
      (⟨ts⟩ : Collection).entities := by
  unfold Collection.entities
  exact List.mem_flatMap.mpr ⟨t, ht, by simp⟩

lemma entity_composite_mem {ts : List Task} {t : Task} {st : Subtask}
    (ht : t ∈ ts) (hst : st ∈ t.subtasks) :
    (⟨.composite t.id st.id, st.status, st.priority, st.dependencies⟩ : Entity) ∈
      (⟨ts⟩ : Collection).entities := by
  unfold Collection.entities
  refine List.mem_flatMap.mpr ⟨t, ht, ?_⟩
  exact List.mem_cons_of_mem _ (List.mem_map.mpr ⟨st, hst, rfl⟩)

lemma mapDeps_id {g : TaskRef → List TaskRef → List TaskRef} {c : Collection}
    (h : ∀ ent ∈ c.entities, g ent.ref ent.deps = ent.deps) : mapDeps g c = c := by
  cases c with
  | mk ts =>
    unfold mapDeps
    congr 1
    refine List.map_congr_left ?_ |>.trans (List.map_id ts)
    intro t ht
    have hdep : g (.plain t.id) t.dependencies = t.dependencies :=
      h _ (entity_plain_mem ht)
    have hsubs : (t.subtasks.map fun st =>
        { st with dependencies := g (.composite t.id st.id) st.dependencies }) = t.subtasks := by
      refine List.map_congr_left ?_ |>.trans (List.map_id t.subtasks)
      intro st hst
      have := h _ (entity_composite_mem ht hst)
      simp only at this
      rw [this]
      rfl
    rw [hdep, hsubs]
    rfl

lemma collectActions_nil {rem : TaskRef → List TaskRef → List TaskRef} {reason : String}
    {c : Collection} (h : ∀ ent ∈ c.entities, rem ent.ref ent.deps = []) :
    collectActions rem reason c = [] := by
  unfold collectActions
  refine List.flatMap_eq_nil_iff.mpr ?_
  intro ent hent
  rw [h ent hent]
  rfl

lemma collectActions_length (rem : TaskRef → List TaskRef → List TaskRef) (reason : String)
    (c : Collection) :
    (collectActions rem reason c).length =
      (c.entities.map (fun ent => (rem ent.ref ent.deps).length)).sum := by
  unfold collectActions
  rw [List.length_flatMap]
  congr 1
  simp [Function.comp]

lemma edgeCount_mapDeps (g : TaskRef → List TaskRef → List TaskRef) (c : Collection) :
    (mapDeps g c).edgeCount = (c.entities.map (fun ent => (g ent.ref ent.deps).length)).sum := by
  show entDepsSum (mapDeps g c).entities = _
  rw [entities_mapDeps]
  show ((c.entities.map _).map _).sum = _
  rw [List.map_map]
  rfl

lemma length_filter_bool_split (d : List TaskRef) (p q : TaskRef → Bool)
    (h : ∀ r, q r = !(p r)) :
    (d.filter p).length + (d.filter q).length = d.length := by
  induction d with
  | nil => rfl
  | cons a rest ih =>
    rw [List.filter_cons, List.filter_cons]
    cases hp : p a
    · rw [if_neg (by simp [hp]), if_pos (by simp [h, hp])]
      simp only [List.length_cons]
      omega
    · rw [if_pos (by simp [hp]), if_neg (by simp [h, hp])]
      simp only [List.length_cons]
      omega

lemma resolves_stepSelf (c : Collection) (r : TaskRef) :
    (stepSelf c).resolves r = c.resolves r := by
  unfold Collection.resolves
  rw [stepSelf, nodes_mapDeps]

lemma entities_abc (c : Collection) :
    (stepDedup (stepDangling (stepSelf c))).entities =
      c.entities.map (fun e =>
        ⟨e.ref, e.status, e.priority,
          (dedupSplit [] ((e.deps.filter (fun r => r ≠ e.ref)).filter
            (fun r => (stepSelf c).resolves r))).1⟩) := by
  rw [stepDedup, entities_mapDeps, stepDangling, entities_mapDeps, stepSelf, entities_mapDeps]
  rw [List.map_map, List.map_map]
  rfl

lemma nodes_abc (c : Collection) :
    (stepDedup (stepDangling (stepSelf c))).nodes = c.nodes := by
  rw [stepDedup, nodes_mapDeps, stepDangling, nodes_mapDeps, stepSelf, nodes_mapDeps]

lemma fixMid_clean (c : Collection) :
    ∀ ent ∈ (stepDedup (stepDangling (stepSelf c))).entities,
      (∀ r ∈ ent.deps, r ≠ ent.ref ∧ r ∈ c.nodes) ∧ ent.deps.Nodup := by
  intro ent hent
  rw [entities_abc] at hent
  obtain ⟨e0, he0, rfl⟩ := List.mem_map.mp hent
  refine ⟨?_, (dedupSplit_nodup _ _).1⟩
  intro r hr
  have hr1 : r ∈ (e0.deps.filter (fun r => r ≠ e0.ref)).filter
      (fun r => (stepSelf c).resolves r) :=
    (dedupSplit_sublist _ _).subset hr
  have hr2 := List.mem_filter.mp hr1
  have hr3 := List.mem_filter.mp hr2.1
  refine ⟨by simpa using hr3.2, ?_⟩
  have hres : (stepSelf c).resolves r = true := hr2.2
  rw [resolves_stepSelf] at hres
  unfold Collection.resolves at hres
  exact of_decide_eq_true hres

lemma fixResult_findCycles (c : Collection) : ((Collection.fix c).1).findCycles = [] := by
  show ((breakCycles ((stepDedup (stepDangling (stepSelf c))).edgeCount + 1)
    (stepDedup (stepDangling (stepSelf c)))).1).findCycles = []
  exact breakCycles_findCycles _ _ (by omega)

lemma fix_nodes (c : Collection) : ((Collection.fix c).1).nodes = c.nodes := by
  show ((breakCycles ((stepDedup (stepDangling (stepSelf c))).edgeCount + 1)
    (stepDedup (stepDangling (stepSelf c)))).1).nodes = c.nodes
  rw [breakCycles_nodes, nodes_abc]

lemma fixResult_clean (c : Collection) :
    ∀ ent ∈ ((Collection.fix c).1).entities,
      (∀ r ∈ ent.deps, r ≠ ent.ref ∧ r ∈ ((Collection.fix c).1).nodes) ∧ ent.deps.Nodup := by
  intro ent hent
  have hent2 : ent ∈ ((breakCycles ((stepDedup (stepDangling (stepSelf c))).edgeCount + 1)
      (stepDedup (stepDangling (stepSelf c)))).1).entities := hent
  obtain ⟨a, ha, har⟩ := forall2_mem_right (breakCycles_entRel _ _) ent hent2
  obtain ⟨hclean_a, hnd_a⟩ := fixMid_clean c a ha
  refine ⟨?_, har.2.2.2.nodup hnd_a⟩
  intro r hr
  have hra : r ∈ a.deps := har.2.2.2.subset hr
  refine ⟨?_, ?_⟩
  · rw [har.1]
    exact (hclean_a r hra).1
  · rw [fix_nodes]
    exact (hclean_a r hra).2

lemma validate_eq_nil {c : Collection}
    (hclean : ∀ ent ∈ c.entities, (∀ r ∈ ent.deps, r ≠ ent.ref ∧ r ∈ c.nodes) ∧ ent.deps.Nodup)
    (hcyc : c.findCycles = []) : c.validate = [] := by
  unfold Collection.validate
  rw [hcyc]
  simp only [List.map_nil, List.append_nil]
  refine List.flatMap_eq_nil_iff.mpr ?_
  intro ent hent
  obtain ⟨hc, hnd⟩ := hclean ent hent
  unfold entityViolations
  rw [List.filter_eq_nil_iff.mpr (fun r hr => by simp [(hc r hr).1])]
  rw [dedupSplit_eq_self ent.deps [] hnd (by simp)]
  rw [List.filter_eq_nil_iff.mpr (fun r hr => ?_)]
  · simp
  · have hres : r ∈ c.nodes := (hc r hr).2
    simp [Collection.resolves, hres]

lemma stepSelf_id {c : Collection}
    (h : ∀ ent ∈ c.entities, ∀ r ∈ ent.deps, r ≠ ent.ref) : stepSelf c = c :=
  mapDeps_id (fun ent hent => List.filter_eq_self.mpr (fun r hr => by simp [h ent hent r hr]))

lemma stepDangling_id {c : Collection}
    (h : ∀ ent ∈ c.entities, ∀ r ∈ ent.deps, r ∈ c.nodes) : stepDangling c = c :=
  mapDeps_id (fun ent hent => List.filter_eq_self.mpr (fun r hr => by
    simp [Collection.resolves, h ent hent r hr]))

lemma stepDedup_id {c : Collection}
    (h : ∀ ent ∈ c.entities, ent.deps.Nodup) : stepDedup c = c :=
  mapDeps_id (fun ent hent => by rw [dedupSplit_eq_self ent.deps [] (h ent hent) (by simp)])

lemma breakCycles_id {fuel : Nat} {c : Collection} (h : c.findCycles = []) :
    breakCycles fuel c = (c, []) := by
  cases fuel with
  | zero => rfl
  | succ n => rw [breakCycles, h]

lemma fix_eq (c : Collection) :
    Collection.fix c =
      ((breakCycles ((stepDedup (stepDangling (stepSelf c))).edgeCount + 1)
        (stepDedup (stepDangling (stepSelf c)))).1,
       collectActions (fun ref d => d.filter (fun r => r = ref)) "self-dependency" c ++
       collectActions (fun _ d => d.filter (fun r => ¬ (stepSelf c).resolves r))
         "dangling reference" (stepSelf c) ++
       collectActions (fun _ d => (dedupSplit [] d).2) "duplicate"
         (stepDangling (stepSelf c)) ++
       (breakCycles ((stepDedup (stepDangling (stepSelf c))).edgeCount + 1)
        (stepDedup (stepDangling (stepSelf c)))).2) := rfl

/-- Claim C1: for every collection, running `fix` and then `validate` on the
result yields an empty violation list — `fix` always converges to a collection
with no self-dependencies, no dangling references, no duplicate dependency
entries and no cycles; and (`fix` being a total function of the model) it never
errors. -/
theorem fix_then_validate_empty (c : Collection) :
    ((Collection.fix c).1).validate = [] :=
  validate_eq_nil (fixResult_clean c) (fixResult_findCycles c)

/-- Claim C3: `fix` is idempotent — applied to the collection a first `fix`
produced, it returns that collection unchanged and records an empty list of
`Action`s. -/
theorem fix_idempotent (c : Collection) :
    Collection.fix ((Collection.fix c).1) = ((Collection.fix c).1, []) := by
  have hclean := fixResult_clean c
  have hcyc := fixResult_findCycles c
  set cs := (Collection.fix c).1 with hcs
  have h1 : stepSelf cs = cs :=
    stepSelf_id (fun ent hent r hr => ((hclean ent hent).1 r hr).1)
  have h2 : stepDangling cs = cs :=
    stepDangling_id (fun ent hent r hr => ((hclean ent hent).1 r hr).2)
  have h3 : stepDedup cs = cs :=
    stepDedup_id (fun ent hent => (hclean ent hent).2)
  have ha1 : collectActions (fun ref d => d.filter (fun r => r = ref))
      "self-dependency" cs = [] :=
    collectActions_nil (fun ent hent => List.filter_eq_nil_iff.mpr (fun r hr => by
      simp [((hclean ent hent).1 r hr).1]))
  have ha2 : collectActions (fun _ d => d.filter (fun r => ¬ cs.resolves r))
      "dangling reference" cs = [] :=
    collectActions_nil (fun ent hent => List.filter_eq_nil_iff.mpr (fun r hr => by
      simp [Collection.resolves, ((hclean ent hent).1 r hr).2]))
  have ha3 : collectActions (fun _ d => (dedupSplit [] d).2) "duplicate" cs = [] :=
    collectActions_nil (fun ent hent => by
      rw [dedupSplit_eq_self ent.deps [] ((hclean ent hent).2) (by simp)])
  rw [fix_eq cs, h1, h2, h3, breakCycles_id hcyc, ha1, ha2, ha3]
  simp

lemma no_cycle_violation {c : Collection} (h : c.findCycles = []) (p : List TaskRef) :
    Violation.cycle p ∉ c.validate := by
  unfold Collection.validate
  rw [h]
  simp only [List.map_nil, List.append_nil]
  intro hmem
  obtain ⟨ent, hent, hv⟩ := List.mem_flatMap.mp hmem
  unfold entityViolations at hv
  rcases List.mem_append.mp hv with h1 | h1
  · rcases List.mem_append.mp h1 with h2 | h2
    · obtain ⟨r, _, he⟩ := List.mem_map.mp h2
      exact Violation.noConfusion he
    · obtain ⟨r, _, he⟩ := List.mem_map.mp h2
      exact Violation.noConfusion he
  · obtain ⟨r, _, he⟩ := List.mem_map.mp h1
    exact Violation.noConfusion he

/-- Claim C2: a successful `addDependency` leaves a graph in which `validate`
reports no cycle, and a `WouldCreateCycle` failure returns the input collection
unchanged together with a genuine cycle path of the simulated graph. -/
theorem addDependency_acyclic (c : Collection) (a b : TaskRef) :
    (∀ c2, c.addDependency a b = (c2, none) →
      ∀ p, Violation.cycle p ∉ c2.validate) ∧
    (∀ c2 p, c.addDependency a b = (c2, some (DepError.wouldCreateCycle p)) →
      c2 = c ∧ IsCycle ((c.insertDep a b).adj) p) := by
  constructor
  · intro c2 heq p
    unfold Collection.addDependency at heq
    split_ifs at heq
    any_goals exact Option.noConfusion (congrArg Prod.snd heq)
    cases hfc : (c.insertDep a b).findCycles with
    | nil =>
      rw [hfc] at heq
      have h1 : c.insertDep a b = c2 := congrArg Prod.fst heq
      rw [← h1]
      exact no_cycle_violation hfc p
    | cons cyc rest =>
      rw [hfc] at heq
      exact Option.noConfusion (congrArg Prod.snd heq)
  · intro c2 p heq
    unfold Collection.addDependency at heq
    split_ifs at heq
    any_goals exact DepError.noConfusion (Option.some.inj (congrArg Prod.snd heq))
    cases hfc : (c.insertDep a b).findCycles with
    | nil =>
      rw [hfc] at heq
      exact Option.noConfusion (congrArg Prod.snd heq)
    | cons cyc rest =>
      rw [hfc] at heq
      have h1 : c = c2 := congrArg Prod.fst heq
      have h2 := congrArg Prod.snd heq
      simp only [Option.some.injEq, DepError.wouldCreateCycle.injEq] at h2
      refine ⟨h1.symm, ?_⟩
      rw [← h2]
      exact findCycles_sound _ cyc (by rw [hfc]; simp)

/-- Witness for claim C2 at the §8 example: `addDependency(3, 1)` on tasks
`1 (deps=[2])`, `2 (deps=[3])`, `3` is rejected with the cycle `[1, 2, 3]` and
the collection is unchanged; adding `1 → 3` instead succeeds cycle-free. -/
theorem addDependency_acyclic_witness :
    exampleChain.addDependency (.plain 3) (.plain 1) =
        (exampleChain, some (DepError.wouldCreateCycle [.plain 1, .plain 2, .plain 3])) ∧
    (exampleChain = exampleChain ∧
      IsCycle ((exampleChain.insertDep (.plain 3) (.plain 1)).adj)
        [.plain 1, .plain 2, .plain 3]) ∧
    Violation.cycle [.plain 3] ∉ ((exampleChain.insertDep (.plain 1) (.plain 3)).validate) := by
  refine ⟨by decide, (addDependency_acyclic exampleChain (.plain 3) (.plain 1)).2
      exampleChain [.plain 1, .plain 2, .plain 3] (by decide), ?_⟩
  exact (addDependency_acyclic exampleChain (.plain 1) (.plain 3)).1
    (exampleChain.insertDep (.plain 1) (.plain 3)) (by decide) [.plain 3]

/-- Claim C6: after `removeTask(T)` no remaining entity is task `T` or one of
its subtasks, and no remaining entity's dependency list references `T` or any
subtask that belonged to `T`. -/
theorem removeTask_cascades (c : Collection) (tid : Nat) :
    ∀ ent ∈ ((c.removeTask tid).1).entities,
      refersToTask tid ent.ref = false ∧
      ∀ r ∈ ent.deps, refersToTask tid r = false := by
  intro ent hent
  have hent2 : ent ∈ (⟨(c.tasks.filter (fun t => t.id ≠ tid)).map fun t =>
      { t with
        dependencies := t.dependencies.filter (fun r => ¬ refersToTask tid r),
        subtasks := t.subtasks.map fun st =>
          { st with dependencies :=
              st.dependencies.filter (fun r => ¬ refersToTask tid r) } }⟩ :
      Collection).entities := hent
  unfold Collection.entities at hent2
  obtain ⟨t1, ht1, hblock⟩ := List.mem_flatMap.mp hent2
  obtain ⟨t0, ht0, rfl⟩ := List.mem_map.mp ht1
  have hid : ¬ t0.id = tid := by simpa using (List.mem_filter.mp ht0).2
  rcases List.mem_cons.mp hblock with h1 | h1
  · subst h1
    refine ⟨by simp [refersToTask, hid], ?_⟩
    intro r hr
    have := (List.mem_filter.mp hr).2
    simpa using this
  · obtain ⟨st1, hst1, rfl⟩ := List.mem_map.mp h1
    obtain ⟨st0, hst0, rfl⟩ := List.mem_map.mp hst1
    refine ⟨by simp [refersToTask, hid], ?_⟩
    intro r hr
    have := (List.mem_filter.mp hr).2
    simpa using this

/-- Witness for claim C6: removing task `3` from the `1 (done)`, `2 (deps=[1])`,
`3 (deps=[2])` collection leaves entity `2` whose reference and remaining
dependency `1` do not refer to task `3`. -/
theorem removeTask_cascades_witness :
    refersToTask 3 (TaskRef.plain 2) = false ∧
    refersToTask 3 (TaskRef.plain 1) = false := by
  have h := removeTask_cascades exampleNext 3
    ⟨.plain 2, .pending, .medium, [.plain 1]⟩ (by decide)
  exact ⟨h.1, h.2 (.plain 1) (by decide)⟩

lemma betterEnt_irrefl (a : Entity) : betterEnt a a = false := by
  have h : ¬ tripleLt (entKey a) (entKey a) := by
    unfold tripleLt
    omega
  simpa [betterEnt] using h

lemma betterEnt_trans {a b c : Entity} (h1 : betterEnt a b = true)
    (h2 : betterEnt b c = true) : betterEnt a c = true := by
  unfold betterEnt at h1 h2 ⊢
  rw [decide_eq_true_eq] at h1 h2 ⊢
  unfold tripleLt at h1 h2 ⊢
  omega

lemma betterEnt_le_lt_trans {e b r : Entity} (h1 : betterEnt e b = false)
    (h2 : betterEnt e r = true) : betterEnt b r = true := by
  unfold betterEnt at h1 h2 ⊢
  rw [decide_eq_false_iff_not] at h1
  rw [decide_eq_true_eq] at h2 ⊢
  unfold tripleLt at h1 h2 ⊢
  omega

lemma pickBestAux_mem : ∀ (rest : List Entity) (b : Entity),
    pickBestAux b rest = b ∨ pickBestAux b rest ∈ rest := by
  intro rest
  induction rest with
  | nil => intro b; exact Or.inl rfl
  | cons e t ih =>
    intro b
    rw [pickBestAux]
    by_cases hc : betterEnt e b = true
    · rw [if_pos hc]
      rcases ih e with h | h
      · exact Or.inr (by simp [h])
      · exact Or.inr (by simp [h])
    · rw [if_neg hc]
      rcases ih b with h | h
      · exact Or.inl h
      · exact Or.inr (by simp [h])

lemma pickBestAux_best : ∀ (rest : List Entity) (b x : Entity),
    (x = b ∨ x ∈ rest) → betterEnt x (pickBestAux b rest) = false := by
  intro rest
  induction rest with
  | nil =>
    intro b x hx
    rcases hx with rfl | h
    · rw [pickBestAux]
      exact betterEnt_irrefl x
    · cases h
  | cons e t ih =>
    intro b x hx
    rw [pickBestAux]
    by_cases hc : betterEnt e b = true
    · rw [if_pos hc]
      rcases hx with rfl | hm
      · cases hbr : betterEnt x (pickBestAux e t) with
        | false => rfl
        | true =>
          have h2 : betterEnt e (pickBestAux e t) = true := betterEnt_trans hc hbr
          have h3 := ih e e (Or.inl rfl)
          rw [h3] at h2
          exact Bool.noConfusion h2
      · rcases List.mem_cons.mp hm with rfl | hm2
        · exact ih x x (Or.inl rfl)
        · exact ih e x (Or.inr hm2)
    · rw [if_neg hc]
      rcases hx with rfl | hm
      · exact ih x x (Or.inl rfl)
      · rcases List.mem_cons.mp hm with rfl | hm2
        · cases hbr : betterEnt x (pickBestAux b t) with
          | false => rfl
          | true =>
            have hc2 : betterEnt x b = false := by
              cases hcb : betterEnt x b with
              | false => rfl
              | true => exact absurd hcb hc
            have h2 : betterEnt b (pickBestAux b t) = true :=
              betterEnt_le_lt_trans hc2 hbr
            have h3 := ih b b (Or.inl rfl)
            rw [h3] at h2
            exact Bool.noConfusion h2
        · exact ih b x (Or.inr hm2)

lemma pickBest_spec {l : List Entity} {r : Entity} (h : pickBest l = some r) :
    r ∈ l ∧ ∀ x ∈ l, betterEnt x r = false := by
  cases l with
  | nil => exact Option.noConfusion h
  | cons e t =>
    rw [pickBest] at h
    have hr : pickBestAux e t = r := by simpa using h
    constructor
    · rcases pickBestAux_mem t e with h1 | h1
      · rw [← hr, h1]
        simp
      · rw [← hr]
        exact List.mem_cons_of_mem _ h1
    · intro x hx
      rw [← hr]
      rcases List.mem_cons.mp hx with rfl | hm
      · exact pickBestAux_best t x x (Or.inl rfl)
      · exact pickBestAux_best t e x (Or.inr hm)

lemma pickBest_none {l : List Entity} (h : pickBest l = none) : l = [] := by
  cases l with
  | nil => rfl
  | cons e t => exact Option.noConfusion h

/-- Claim C4: `next` answers `allDone` only when every entity is terminal,
`allBlocked` only when every non-terminal entity has a dependency that does not
resolve to a `done` entity, and any entity it returns is an eligible member of
the collection.  The two `None` causes are the two distinct constructors
`allDone` and `allBlocked` of `NextResult`. -/
theorem next_spec (c : Collection) :
    (c.next = NextResult.allDone →
      ∀ ent ∈ c.entities, ent.status = Status.done ∨ ent.status = Status.cancelled) ∧
    (c.next = NextResult.allBlocked →
      ∀ ent ∈ c.entities,
        ¬(ent.status = Status.done ∨ ent.status = Status.cancelled) →
        ¬ ∀ r ∈ ent.deps, c.statusOf r = some Status.done) ∧
    (∀ ent, c.next = NextResult.entity ent →
      ent ∈ c.entities ∧ c.eligible ent = true) := by
  refine ⟨?_, ?_, ?_⟩
  · intro heq ent hent
    unfold Collection.next at heq
    cases hpb : pickBest (c.entities.filter (fun x => c.eligible x)) with
    | some r => rw [hpb] at heq; exact NextResult.noConfusion heq
    | none =>
      rw [hpb] at heq
      by_cases hall : c.entities.all (fun e => terminal e.status) = true
      · have := List.all_eq_true.mp hall ent hent
        unfold terminal at this
        exact of_decide_eq_true this
      · rw [if_neg hall] at heq
        exact NextResult.noConfusion heq
  · intro heq ent hent hterm hdeps
    unfold Collection.next at heq
    cases hpb : pickBest (c.entities.filter (fun x => c.eligible x)) with
    | some r => rw [hpb] at heq; exact NextResult.noConfusion heq
    | none =>
      have hnil := pickBest_none hpb
      have hnotelig : c.eligible ent = false := by
        cases he : c.eligible ent with
        | false => rfl
        | true =>
          have : ent ∈ c.entities.filter (fun x => c.eligible x) :=
            List.mem_filter.mpr ⟨hent, he⟩
          rw [hnil] at this
          cases this
      unfold Collection.eligible at hnotelig
      rw [Bool.and_eq_false_iff] at hnotelig
      rcases hnotelig with h1 | h1
      · unfold terminal at h1
        simp at h1
        exact hterm (or_iff_not_imp_left.mpr h1)
      · have := List.all_eq_true.mpr (fun r hr => decide_eq_true (hdeps r hr))
        rw [h1] at this
        exact Bool.noConfusion this
  · intro ent heq
    unfold Collection.next at heq
    cases hpb : pickBest (c.entities.filter (fun x => c.eligible x)) with
    | none =>
      rw [hpb] at heq
      by_cases hall : c.entities.all (fun e => terminal e.status) = true
      · rw [if_pos hall] at heq
        exact NextResult.noConfusion heq
      · rw [if_neg hall] at heq
        exact NextResult.noConfusion heq
    | some r =>
      rw [hpb] at heq
      have hr : r = ent := by
        have := NextResult.entity.inj heq
        exact this
      subst hr
      have hspec := pickBest_spec hpb
      have := List.mem_filter.mp hspec.1
      exact ⟨this.1, this.2⟩

/-- Witness for claim C4: on the all-terminal collection the `allDone` branch
certifies the concrete entity's terminal status, and on the §8 example the
returned task `2` is an eligible member. -/
theorem next_spec_witness :
    ((⟨.plain 1, .done, .medium, []⟩ : Entity).status = Status.done ∨
      (⟨.plain 1, .done, .medium, []⟩ : Entity).status = Status.cancelled) ∧
    ((⟨.plain 2, .pending, .medium, [.plain 1]⟩ : Entity) ∈ exampleNext.entities ∧
      exampleNext.eligible ⟨.plain 2, .pending, .medium, [.plain 1]⟩ = true) :=
  ⟨(next_spec exampleDone).1 (by decide) _ (by decide),
   (next_spec exampleNext).2.2 _ (by decide)⟩

/-- Claim C5: any entity `next` returns is optimal among the eligible entities
— no eligible entity has a strictly better selection key (higher priority
first, then lower canonical id); and on the §8 example collection `next`
returns task `2`. -/
theorem next_selection (c : Collection) :
    (∀ ent, c.next = NextResult.entity ent →
      ∀ e ∈ c.entities, c.eligible e = true →
        ¬ tripleLt (entKey e) (entKey ent)) ∧
    exampleNext.next = NextResult.entity ⟨.plain 2, .pending, .medium, [.plain 1]⟩ := by
  constructor
  · intro ent heq e he helig
    unfold Collection.next at heq
    cases hpb : pickBest (c.entities.filter (fun x => c.eligible x)) with
    | none =>
      rw [hpb] at heq
      by_cases hall : c.entities.all (fun x => terminal x.status) = true
      · rw [if_pos hall] at heq
        exact NextResult.noConfusion heq
      · rw [if_neg hall] at heq
        exact NextResult.noConfusion heq
    | some r =>
      rw [hpb] at heq
      have hr : r = ent := NextResult.entity.inj heq
      subst hr
      have hspec := pickBest_spec hpb
      have hb := hspec.2 e (List.mem_filter.mpr ⟨he, helig⟩)
      unfold betterEnt at hb
      exact of_decide_eq_false hb
  · decide

/-- Witness for claim C5 at the §8 example: the returned task `2` has no
strictly better selection key than itself, the hypotheses being discharged on
the concrete collection. -/
theorem next_selection_witness :
    ¬ tripleLt (entKey ⟨.plain 2, .pending, .medium, [.plain 1]⟩)
      (entKey ⟨.plain 2, .pending, .medium, [.plain 1]⟩) :=
  (next_selection exampleNext).1 ⟨.plain 2, .pending, .medium, [.plain 1]⟩ (by decide)
    ⟨.plain 2, .pending, .medium, [.plain 1]⟩ (by decide) (by decide)

lemma subRel_refl (st : Subtask) : SubRel st st :=
  ⟨rfl, rfl, rfl, rfl, rfl, rfl, rfl, List.Sublist.refl _⟩

lemma taskRel_refl (t : Task) : TaskRel t t :=
  ⟨rfl, rfl, rfl, rfl, rfl, rfl, rfl, List.Sublist.refl _,
    List.forall₂_same.mpr (fun st _ => subRel_refl st)⟩

lemma collRel_refl (c : Collection) : CollRel c c :=
  List.forall₂_same.mpr (fun t _ => taskRel_refl t)

lemma subRel_trans {a b c : Subtask} (h1 : SubRel a b) (h2 : SubRel b c) : SubRel a c :=
  ⟨h2.1.trans h1.1, h2.2.1.trans h1.2.1, h2.2.2.1.trans h1.2.2.1,
    h2.2.2.2.1.trans h1.2.2.2.1, h2.2.2.2.2.1.trans h1.2.2.2.2.1,
    h2.2.2.2.2.2.1.trans h1.2.2.2.2.2.1, h2.2.2.2.2.2.2.1.trans h1.2.2.2.2.2.2.1,
    h2.2.2.2.2.2.2.2.trans h1.2.2.2.2.2.2.2⟩

lemma forall2_subRel_trans {l1 l2 l3 : List Subtask}
    (h1 : List.Forall₂ SubRel l1 l2) (h2 : List.Forall₂ SubRel l2 l3) :
    List.Forall₂ SubRel l1 l3 := by
  induction h1 generalizing l3 with
  | nil => cases h2; exact List.Forall₂.nil
  | cons hab _ ih =>
    cases h2 with
    | cons hbc h2t => exact List.Forall₂.cons (subRel_trans hab hbc) (ih h2t)

lemma taskRel_trans {a b c : Task} (h1 : TaskRel a b) (h2 : TaskRel b c) : TaskRel a c :=
  ⟨h2.1.trans h1.1, h2.2.1.trans h1.2.1, h2.2.2.1.trans h1.2.2.1,
    h2.2.2.2.1.trans h1.2.2.2.1, h2.2.2.2.2.1.trans h1.2.2.2.2.1,
    h2.2.2.2.2.2.1.trans h1.2.2.2.2.2.1, h2.2.2.2.2.2.2.1.trans h1.2.2.2.2.2.2.1,
    h2.2.2.2.2.2.2.2.1.trans h1.2.2.2.2.2.2.2.1,
    forall2_subRel_trans h1.2.2.2.2.2.2.2.2 h2.2.2.2.2.2.2.2.2⟩

lemma forall2_taskRel_trans {l1 l2 l3 : List Task}
    (h1 : List.Forall₂ TaskRel l1 l2) (h2 : List.Forall₂ TaskRel l2 l3) :
    List.Forall₂ TaskRel l1 l3 := by
  induction h1 generalizing l3 with
  | nil => cases h2; exact List.Forall₂.nil
  | cons hab _ ih =>
    cases h2 with
    | cons hbc h2t => exact List.Forall₂.cons (taskRel_trans hab hbc) (ih h2t)

lemma collRel_trans {a b c : Collection} (h1 : CollRel a b) (h2 : CollRel b c) :
    CollRel a c :=
  forall2_taskRel_trans h1 h2

lemma collRel_mapDeps {g : TaskRef → List TaskRef → List TaskRef}
    (hg : ∀ ref d, (g ref d).Sublist d) (c : Collection) :
    CollRel c (mapDeps g c) := by
  unfold CollRel mapDeps
  refine List.forall₂_map_right_iff.mpr (List.forall₂_same.mpr (fun t _ => ?_))
  refine ⟨rfl, rfl, rfl, rfl, rfl, rfl, rfl, hg _ _, ?_⟩
  exact List.forall₂_map_right_iff.mpr (List.forall₂_same.mpr (fun st _ =>
    ⟨rfl, rfl, rfl, rfl, rfl, rfl, rfl, hg _ _⟩))

lemma forall2_subRel_removeEdgeSubs (q : Nat) (s : TaskRef) (sts : List Subtask) :
    List.Forall₂ SubRel sts (removeEdgeSubs q s sts) := by
  induction sts with
  | nil => exact List.Forall₂.nil
  | cons st rest ih =>
    rw [removeEdgeSubs]
    by_cases hq : st.id = q
    · rw [if_pos hq]
      exact List.Forall₂.cons ⟨rfl, rfl, rfl, rfl, rfl, rfl, rfl, List.filter_sublist _⟩
        (List.forall₂_same.mpr (fun x _ => subRel_refl x))
    · rw [if_neg hq]
      exact List.Forall₂.cons (subRel_refl st) ih

lemma collRel_removeEdge (c : Collection) (e s : TaskRef) :
    CollRel c (c.removeEdge e s) := by
  cases c with
  | mk ts =>
    cases e with
    | plain n =>
      show CollRel ⟨ts⟩ ⟨removeEdgePlain n s ts⟩
      unfold CollRel
      induction ts with
      | nil => exact List.Forall₂.nil
      | cons t rest ih =>
        rw [removeEdgePlain]
        by_cases hn : t.id = n
        · rw [if_pos hn]
          exact List.Forall₂.cons
            ⟨rfl, rfl, rfl, rfl, rfl, rfl, rfl, List.filter_sublist _,
              List.forall₂_same.mpr (fun st _ => subRel_refl st)⟩
            (List.forall₂_same.mpr (fun x _ => taskRel_refl x))
        · rw [if_neg hn]
          exact List.Forall₂.cons (taskRel_refl t) ih
    | composite p q =>
      show CollRel ⟨ts⟩ ⟨removeEdgeComposite p q s ts⟩
      unfold CollRel
      induction ts with
      | nil => exact List.Forall₂.nil
      | cons t rest ih =>
        rw [removeEdgeComposite]
        by_cases hc : t.id = p ∧ t.subtasks.any (fun st => st.id = q)
        · rw [if_pos hc]
          exact List.Forall₂.cons
            ⟨rfl, rfl, rfl, rfl, rfl, rfl, rfl, List.Sublist.refl _,
              forall2_subRel_removeEdgeSubs q s t.subtasks⟩
            (List.forall₂_same.mpr (fun x _ => taskRel_refl x))
        · rw [if_neg hc]
          exact List.Forall₂.cons (taskRel_refl t) ih

lemma collRel_breakCycles :
    ∀ (fuel : Nat) (c : Collection), CollRel c ((breakCycles fuel c).1) := by
  intro fuel
  induction fuel with
  | zero => intro c; exact collRel_refl c
  | succ n ih =>
    intro c
    rw [breakCycles]
    cases c.findCycles with
    | nil => exact collRel_refl c
    | cons cyc rest =>
      dsimp only
      exact collRel_trans (collRel_removeEdge _ _ _) (ih _)

lemma collRel_fix (c : Collection) : CollRel c ((Collection.fix c).1) := by
  have h1 : CollRel c (stepSelf c) := collRel_mapDeps (fun _ _ => List.filter_sublist _) c
  have h2 : CollRel (stepSelf c) (stepDangling (stepSelf c)) :=
    collRel_mapDeps (fun _ _ => List.filter_sublist _) _
  have h3 : CollRel (stepDangling (stepSelf c)) (stepDedup (stepDangling (stepSelf c))) :=
    collRel_mapDeps (fun _ d => dedupSplit_sublist d []) _
  have h4 := collRel_breakCycles
    ((stepDedup (stepDangling (stepSelf c))).edgeCount + 1)
    (stepDedup (stepDangling (stepSelf c)))
  exact collRel_trans h1 (collRel_trans h2 (collRel_trans h3 h4))

lemma edgeCount_split_generic {c : Collection}
    {keep rem : TaskRef → List TaskRef → List TaskRef} {reason : String}
    (h : ∀ ent ∈ c.entities,
      (keep ent.ref ent.deps).length + (rem ent.ref ent.deps).length = ent.deps.length) :
    (mapDeps keep c).edgeCount + (collectActions rem reason c).length = c.edgeCount := by
  rw [edgeCount_mapDeps, collectActions_length, ← List.sum_map_add]
  show (c.entities.map (fun ent =>
    (keep ent.ref ent.deps).length + (rem ent.ref ent.deps).length)).sum = c.edgeCount
  rw [List.map_congr_left h]
  rfl

lemma fix_acts_length (c : Collection) :
    ((Collection.fix c).1).edgeCount + ((Collection.fix c).2).length = c.edgeCount := by
  have hA : (stepSelf c).edgeCount +
      (collectActions (fun ref d => d.filter (fun r => r = ref))
        "self-dependency" c).length = c.edgeCount := by
    refine edgeCount_split_generic (fun ent _ => ?_)
    refine length_filter_bool_split ent.deps _ _ (fun r => ?_)
    by_cases hr : r = ent.ref <;> simp [hr]
  have hB : (stepDangling (stepSelf c)).edgeCount +
      (collectActions (fun _ d => d.filter (fun r => ¬ (stepSelf c).resolves r))
        "dangling reference" (stepSelf c)).length = (stepSelf c).edgeCount := by
    refine edgeCount_split_generic (fun ent _ => ?_)
    refine length_filter_bool_split ent.deps _ _ (fun r => ?_)
    cases hres : (stepSelf c).resolves r <;> simp [hres]
  have hC : (stepDedup (stepDangling (stepSelf c))).edgeCount +
      (collectActions (fun _ d => (dedupSplit [] d).2) "duplicate"
        (stepDangling (stepSelf c))).length = (stepDangling (stepSelf c)).edgeCount := by
    refine edgeCount_split_generic (fun ent _ => ?_)
    exact dedupSplit_length ent.deps []
  have hD := breakCycles_acts
    ((stepDedup (stepDangling (stepSelf c))).edgeCount + 1)
    (stepDedup (stepDangling (stepSelf c)))
    (fun ent hent => (fixMid_clean c ent hent).2)
  rw [fix_eq]
  simp only [List.length_append]
  omega

/-- Claim C7: `fix` only removes dependency entries — every task and subtask
present before is present after, at the same position, with identical id,
title, description, details, testStrategy, status and priority, its dependency
list a sublist of the original; and every removal is matched by exactly one
recorded `Action` (each carrying an entity, a removed reference and a reason):
the number of recorded actions equals the number of dropped entries. -/
theorem fix_frame (c : Collection) :
    CollRel c ((Collection.fix c).1) ∧
    ((Collection.fix c).1).edgeCount + ((Collection.fix c).2).length = c.edgeCount :=
  ⟨collRel_fix c, fix_acts_length c⟩
lemma takeWhile_digits_append {b : List Char} :
    ∀ (a : List Char), (∀ x ∈ a, x.isDigit = true) →
      (a ++ '.' :: b).takeWhile (fun c => c.isDigit) = a ∧
      (a ++ '.' :: b).dropWhile (fun c => c.isDigit) = '.' :: b := by
  intro a
  induction a with
  | nil =>
    intro _
    constructor
    · rw [List.nil_append, List.takeWhile_cons, if_neg (by decide)]
    · rw [List.nil_append, List.dropWhile_cons, if_neg (by decide)]
  | cons x rest ih =>
    intro ha
    have hx : x.isDigit = true := ha x (by simp)
    obtain ⟨ht, hdp⟩ := ih (fun y hy => ha y (by simp [hy]))
    constructor
    · rw [List.cons_append, List.takeWhile_cons, if_pos hx, ht]
    · rw [List.cons_append, List.dropWhile_cons, if_pos hx, hdp]

lemma grammar_parse_ok {l : List Char} (hg : GrammarMatch l) :
    ∃ t, parseRefChars l = Except.ok t := by
  rcases hg with ⟨hne, ha⟩ | ⟨a, b, rfl, hane, hbne, ha, hb⟩
  · have htake : l.takeWhile (fun c => c.isDigit) = l :=
      List.takeWhile_eq_self_iff.mpr ha
    have hdrop : l.dropWhile (fun c => c.isDigit) = [] :=
      List.dropWhile_eq_nil_iff.mpr ha
    refine ⟨.plain (digitsToNat l), ?_⟩
    unfold parseRefChars
    rw [List.span_eq_take_drop, htake, hdrop]
    dsimp only
    rw [if_neg hne]
  · obtain ⟨htake, hdrop⟩ := takeWhile_digits_append a ha
    refine ⟨.composite (digitsToNat a) (digitsToNat b), ?_⟩
    unfold parseRefChars
    rw [List.span_eq_take_drop, htake, hdrop]
    dsimp only
    rw [if_pos ⟨rfl, hane, hbne, List.all_eq_true.mpr hb⟩]

lemma parse_ok_grammar {l : List Char} (h : ∃ t, parseRefChars l = Except.ok t) :
    GrammarMatch l := by
  obtain ⟨t, ht⟩ := h
  unfold parseRefChars at ht
  rw [List.span_eq_take_drop] at ht
  cases hdrop : l.dropWhile (fun c => c.isDigit) with
  | nil =>
    rw [hdrop] at ht
    dsimp only at ht
    by_cases hds : l.takeWhile (fun c => c.isDigit) = []
    · rw [if_pos hds] at ht
      exact Except.noConfusion ht
    · left
      have hl : l.takeWhile (fun c => c.isDigit) = l := by
        have hsplit := List.takeWhile_append_dropWhile (fun c => c.isDigit) l
        rw [hdrop] at hsplit
        simpa using hsplit
      rw [hl] at hds
      refine ⟨hds, ?_⟩
      intro ch hch
      rw [← hl] at hch
      exact List.mem_takeWhile_imp hch
  | cons ch rest =>
    rw [hdrop] at ht
    dsimp only at ht
    by_cases hcond : ch = '.' ∧ l.takeWhile (fun c => c.isDigit) ≠ [] ∧ rest ≠ [] ∧
        rest.all (fun c => c.isDigit) = true
    · right
      obtain ⟨hdot, hds, hrest, hall⟩ := hcond
      subst hdot
      refine ⟨l.takeWhile (fun c => c.isDigit), rest, ?_, hds, hrest, ?_, ?_⟩
      · have hsplit := List.takeWhile_append_dropWhile (fun c => c.isDigit) l
        rw [hdrop] at hsplit
        exact hsplit.symm
      · intro x hx
        exact List.mem_takeWhile_imp hx
      · intro x hx
        exact List.all_eq_true.mp hall x hx
    · rw [if_neg hcond] at ht
      exact Except.noConfusion ht

lemma parseRefChars_dot {l : List Char} {n : Nat} (hd : '.' ∈ l) :
    parseRefChars l ≠ Except.ok (TaskRef.plain n) := by
  intro heq
  unfold parseRefChars at heq
  rw [List.span_eq_take_drop] at heq
  cases hdrop : l.dropWhile (fun c => c.isDigit) with
  | nil =>
    have hl : l.takeWhile (fun c => c.isDigit) = l := by
      have hsplit := List.takeWhile_append_dropWhile (fun c => c.isDigit) l
      rw [hdrop] at hsplit
      simpa using hsplit
    have hmem : '.' ∈ l.takeWhile (fun c => c.isDigit) := by rw [hl]; exact hd
    have := List.mem_takeWhile_imp hmem
    exact absurd this (by decide)
  | cons ch rest =>
    rw [hdrop] at heq
    dsimp only at heq
    by_cases hcond : ch = '.' ∧ l.takeWhile (fun c => c.isDigit) ≠ [] ∧ rest ≠ [] ∧
        rest.all (fun c => c.isDigit) = true
    · rw [if_pos hcond] at heq
      exact TaskRef.noConfusion (Except.ok.inj heq)
    · rw [if_neg hcond] at heq
      exact Except.noConfusion heq

/-- Claim C8: `resolve` fails with `InvalidIdFormat` exactly when the token
does not match the grammar `[0-9]+(.[0-9]+)?` anchored on both sides, and a
token containing a dot is never parsed as a plain task reference. -/
theorem resolve_grammar :
    (∀ s : String,
      resolveToken s = Except.error IdError.invalidIdFormat ↔ ¬ GrammarMatch s.data) ∧
    (∀ (s : String) (n : Nat), '.' ∈ s.data →
      resolveToken s ≠ Except.ok (TaskRef.plain n)) := by
  constructor
  · intro s
    constructor
    · intro herr hg
      obtain ⟨t, ht⟩ := grammar_parse_ok hg
      have : Except.ok (ε := IdError) t = Except.error IdError.invalidIdFormat := by
        rw [← ht, ← herr]
        rfl
      exact Except.noConfusion this
    · intro hng
      cases hres : resolveToken s with
      | error e => cases e; rfl
      | ok t => exact absurd (parse_ok_grammar ⟨t, hres⟩) hng
  · intro s n hd
    exact parseRefChars_dot hd

/-- Witness for claim C8: the token `"x"` fails the grammar (certified through
the resolver's rejection), and the dotted token `"1.2"` is not parsed as the
plain reference `1`. -/
theorem resolve_grammar_witness :
    ¬ GrammarMatch (String.data "x") ∧
    resolveToken "1.2" ≠ Except.ok (TaskRef.plain 1) :=
  ⟨(resolve_grammar.1 "x").mp (by rfl), resolve_grammar.2 "1.2" 1 (by decide)⟩

end TaskCore

namespace JsHelpers

lemma cmpZeros_range : ∀ ys : List (Option Int),
    cmpZeros ys = -1 ∨ cmpZeros ys = 0 ∨ cmpZeros ys = 1 := by
  intro ys
  induction ys with
  | nil => simp [cmpZeros]
  | cons y ys ihy =>
    rw [cmpZeros]
    split_ifs
    · simp
    · simp
    · exact ihy

lemma cmpZeros_antisymm : ∀ ys : List (Option Int),
    cmpZeros ys = -(cmpParts ys []) := by
  intro ys
  induction ys with
  | nil => rw [cmpZeros, cmpParts, cmpZeros]; simp
  | cons y ys ihy =>
    rw [cmpZeros, cmpParts]
    split_ifs <;> omega

lemma cmpParts_self : ∀ l : List (Option Int), cmpParts l l = 0 := by
  intro l
  induction l with
  | nil => rw [cmpParts, cmpZeros]
  | cons x xs ih =>
    rw [cmpParts, if_neg (lt_irrefl _), if_neg (lt_irrefl _)]
    exact ih

lemma cmpParts_range : ∀ xs ys : List (Option Int),
    cmpParts xs ys = -1 ∨ cmpParts xs ys = 0 ∨ cmpParts xs ys = 1 := by
  intro xs
  induction xs with
  | nil =>
    intro ys
    rw [cmpParts]
    exact cmpZeros_range ys
  | cons x xs ihx =>
    intro ys
    cases ys with
    | nil =>
      rw [cmpParts]
      split_ifs
      · simp
      · simp
      · exact ihx []
    | cons y ys =>
      rw [cmpParts]
      split_ifs
      · simp
      · simp
      · exact ihx ys

lemma cmpParts_antisymm : ∀ xs ys : List (Option Int),
    cmpParts xs ys = -(cmpParts ys xs) := by
  intro xs
  induction xs with
  | nil =>
    intro ys
    rw [cmpParts]
    exact cmpZeros_antisymm ys
  | cons x xs ihx =>
    intro ys
    cases ys with
    | nil =>
      rw [cmpParts, cmpParts, cmpZeros]
      have := cmpZeros_antisymm xs
      split_ifs <;> omega
    | cons y ys =>
      rw [cmpParts, cmpParts]
      have := ihx ys
      split_ifs <;> omega

/-- Claim C9: `compareVersions` compares dot-separated versions componentwise
with missing components read as `0`: it is reflexively `0`, identifies `"1.0"`
with `"1.0.0"`, always returns `-1`, `0` or `1`, and is antisymmetric. -/
theorem compareVersions_spec :
    (∀ v : String, compareVersions v v = 0) ∧
    compareVersions "1.0" "1.0.0" = 0 ∧
    (∀ v1 v2 : String,
      (compareVersions v1 v2 = -1 ∨ compareVersions v1 v2 = 0 ∨
        compareVersions v1 v2 = 1) ∧
      compareVersions v1 v2 = -(compareVersions v2 v1)) :=
  ⟨fun _ => cmpParts_self _, by decide,
   fun _ _ => ⟨cmpParts_range _ _, cmpParts_antisymm _ _⟩⟩

/-- Counterexample for claim C10 as stated: when the AI client fails to
initialize, an `args` object with `projectRoot` missing is answered with
`AI_CLIENT_ERROR`, not `MISSING_PROJECT_ROOT` — the client check at lines
32-46 of parse-prd.js precedes the parameter validation. -/
theorem parsePRD_claim_counterexample :
    ¬ (parsePRDDirectCheck false ⟨none, none, none⟩ =
        PrdCheck.errorOut ⟨false, "MISSING_PROJECT_ROOT", false⟩) := by
  decide

/-- Claim C10 (amended): provided the AI client initializes successfully, an
`args` object missing (or carrying a falsy) `projectRoot`, `input` or `output`
is rejected with `MISSING_PROJECT_ROOT`, `MISSING_INPUT_PATH` or
`MISSING_OUTPUT_PATH` respectively, checked in that order, each as
`{success: false, fromCache: false}`, and control never reaches the
`parsePRD` invocation. -/
theorem parsePRD_missing_args (args : PrdArgs) :
    (truthy args.projectRoot = false →
      parsePRDDirectCheck true args =
        PrdCheck.errorOut ⟨false, "MISSING_PROJECT_ROOT", false⟩) ∧
    (truthy args.projectRoot = true → truthy args.input = false →
      parsePRDDirectCheck true args =
        PrdCheck.errorOut ⟨false, "MISSING_INPUT_PATH", false⟩) ∧
    (truthy args.projectRoot = true → truthy args.input = true →
      truthy args.output = false →
      parsePRDDirectCheck true args =
        PrdCheck.errorOut ⟨false, "MISSING_OUTPUT_PATH", false⟩) ∧
    ((truthy args.projectRoot = false ∨ truthy args.input = false ∨
        truthy args.output = false) →
      parsePRDDirectCheck true args ≠ PrdCheck.proceed) := by
  unfold parsePRDDirectCheck
  cases hp : truthy args.projectRoot <;> cases hi : truthy args.input <;>
    cases ho : truthy args.output <;> simp

/-- Witness for claim C10's amended theorem at concrete argument objects,
including the JavaScript-truthiness case of an empty `projectRoot` string. -/
theorem parsePRD_missing_args_witness :
    parsePRDDirectCheck true ⟨some "", some "a", some "b"⟩ =
      PrdCheck.errorOut ⟨false, "MISSING_PROJECT_ROOT", false⟩ ∧
    parsePRDDirectCheck true ⟨some "r", none, some "b"⟩ =
      PrdCheck.errorOut ⟨false, "MISSING_INPUT_PATH", false⟩ ∧
    parsePRDDirectCheck true ⟨some "r", some "a", none⟩ =
      PrdCheck.errorOut ⟨false, "MISSING_OUTPUT_PATH", false⟩ :=
  ⟨(parsePRD_missing_args ⟨some "", some "a", some "b"⟩).1 (by decide),
   (parsePRD_missing_args ⟨some "r", none, some "b"⟩).2.1 (by decide) (by decide),
   (parsePRD_missing_args ⟨some "r", some "a", none⟩).2.2.1
     (by decide) (by decide) (by decide)⟩

end JsHelpers
